import Mathlib

/-!
# hydra — verification development

The file embeds four packages of the repository, each in its own namespace, with all
definitions first and the lemmas and theorems after them:

* `nfs` (hydra/servers/pkg/nfs): the `module` orchestrator of the file replication;
* `uuid` (components/uuid): the worker-bound ID generator;
* `conf` (conf): `PathMatch` and the response templates;
* `ras` (registry/conf/server/auth/ras): the remote authentication list.

## Package `nfs` (hydra/servers/pkg/nfs): the `module` orchestrator

`nfs.module.go` composes three collaborators, `local` (the LocalStore and its
fingerprint index), `remoting` (the RemotingClient) and `async` (the
AsyncReplicator), all three declared in other files of the package.  The methods
of `module` are embedded statement by statement and the collaborators enter in
two ways:

* as parameters (`localOps`, `remotingOps`): every theorem that only depends on
  the control flow of `module` is proved for all collaborators;
* as a model written from the specification (`LocalStore` and its operations),
  used where a property depends on what `SaveFile`, `Has` or `Merge` do.

Effects are made explicit by state passing.  Every call that `module` makes on a
collaborator is appended to a log (`module.calls`), so that "does not call",
"exactly one" and "before/after" are statements about that log.
-/

namespace nfs

/-! ### Data model -/

/-- A Go byte buffer (`[]byte`). -/
abbrev Bytes := List (Fin 256)

/-- A Go `error` value.  `code` is the status carried by errors built with
`errs.NewError`/`errs.NewErrorf`; errors built with `fmt.Errorf` carry none. -/
structure Error where
  code : Option Nat
  msg : String
deriving DecidableEq, Repr

/-- The constant `http.StatusNotFound`. -/
def StatusNotFound : Nat := 404

/-- The constructor `errs.NewError(code, msg)` (and `errs.NewErrorf` once the
message is formatted). -/
def NewError (code : Nat) (msg : String) : Error := { code := some code, msg := msg }

/-- The constructor `fmt.Errorf` once the message is formatted. -/
def Errorf (msg : String) : Error := { code := none, msg := msg }

/-- Modelled from the spec: the type `eFileFP` (the Fingerprint of §3), declared in
another file of the package.  Its fields are the spec's `name`, `checksum`, `size`
and `hosts`; `nfs.module.go` reads the last one as `fp.Hosts`. -/
structure eFileFP where
  name : String
  checksum : Nat
  size : Nat
  Hosts : List String
deriving DecidableEq, Repr

/-- Modelled from the spec: the type `eFileFPLists` (the FingerprintIndex of §3, a
mapping from name to Fingerprint), represented as an association list. -/
abbrev eFileFPLists := List (String × eFileFP)

/-- Modelled from the spec: `(*eFileFP).GetMAP`, declared in another file of the
package: the one-entry index that maps the fingerprint's name to it. -/
def eFileFP.GetMAP (fp : eFileFP) : eFileFPLists := [(fp.name, fp)]

/-- Modelled from the spec: the cluster view held by the RemotingClient (§4.2
`Update`): known peers, master address, own address and master flag. -/
structure remoting where
  hosts : List String
  masterHost : String
  currentAddr : String
  isMaster : Bool
deriving DecidableEq, Repr

/-- A call made by `module` on one of its collaborators, with its arguments. -/
inductive Call where
  | localHas (name : String)
  | localGetFP (name : String)
  | localGetFPs
  | localSaveFile (name : String) (buff : Bytes) (hosts : List String)
  | localMerge (f : eFileFPLists)
  | localFPWrite (items : eFileFPLists)
  | localUpdate (currentAddr : String)
  | localClose
  | remotingUpdate (hosts : List String) (masterHost : String) (currentAddr : String)
      (isMaster : Bool)
  | remotingGetFP (name : String)
  | remotingPull (fp : eFileFP)
  | asyncDoReport (f : eFileFPLists)
  | asyncDoDownload (fp : eFileFP)
  | asyncDoQuery
  | asyncClose
deriving DecidableEq, Repr

/-- Whether a call goes to the RemotingClient. -/
def Call.isRemoting : Call → Bool
  | .remotingUpdate _ _ _ _ => true
  | .remotingGetFP _ => true
  | .remotingPull _ => true
  | _ => false

/-- Whether a call hands a task to the AsyncReplicator. -/
def Call.isAsync : Call → Bool
  | .asyncDoReport _ => true
  | .asyncDoDownload _ => true
  | .asyncDoQuery => true
  | _ => false

/-- The operations of `local` that `module` uses, over an arbitrary LocalStore
state `σ`.  They are declared in another file of the package and taken as
parameters.  `Has`, `GetFP`, `GetFPs` and `Items` (for `local.FPS.Items()`) only
read the state; the others return the new state as well.  `SaveFile` returns a
fingerprint or an error, `Merge` returns its three results. -/
structure localOps (σ : Type) where
  Has : σ → String → Bool
  GetFP : σ → String → Option eFileFP
  GetFPs : σ → eFileFPLists
  Items : σ → eFileFPLists
  SaveFile : σ → String → Bytes → List String → Except Error eFileFP × σ
  Merge : σ → eFileFPLists → (eFileFPLists × List eFileFP × Option Error) × σ
  FPWrite : σ → eFileFPLists → Option Error × σ
  Update : σ → String → σ
  Close : σ → σ

/-- The answers of the cluster to the two synchronous calls of `remoting` that
`module` uses, as functions of the cluster view and the argument.  Declared in
another file of the package and taken as parameters. -/
structure remotingOps where
  GetFP : remoting → String → Except Error eFileFP
  Pull : remoting → eFileFP → Except Error Bytes

/-- The struct `module`: the LocalStore state, the RemotingClient's cluster view,
whether `once` has fired, and the log of collaborator calls, oldest first.  The
AsyncReplicator is observed through the `async…` entries of the log. -/
structure module (σ : Type) where
  local_ : σ
  remoting : remoting
  once : Bool
  calls : List Call

variable {σ : Type}

/-- Append a call to the log. -/
def module.log (m : module σ) (c : Call) : module σ :=
  { m with calls := m.calls ++ [c] }

/-- The tasks handed to the AsyncReplicator so far, oldest first. -/
def module.enqueued (m : module σ) : List Call := m.calls.filter Call.isAsync

/-- The calls made on the RemotingClient so far, oldest first. -/
def module.remoteCalls (m : module σ) : List Call := m.calls.filter Call.isRemoting

/-! ### Path handling used by `getFileName` -/

/-- Split a path at every `'/'` (the elements between separators, empty ones
included). -/
def splitSlash : List Char → List (List Char)
  | [] => [[]]
  | c :: cs =>
    if c = '/' then [] :: splitSlash cs
    else
      match splitSlash cs with
      | [] => [[c]]
      | seg :: segs => (c :: seg) :: segs

/-- Join path elements with `'/'` (`strings.Join(elem, "/")`). -/
def joinSlash : List (List Char) → List Char
  | [] => []
  | [e] => e
  | e :: es => e ++ '/' :: joinSlash es

/-- One element of the main loop of `filepath.Clean`; `out` holds the elements
written so far, last one first.  Empty and `.` elements are dropped; `..` removes
the last real element when there is one, is dropped at the root, and is kept
otherwise. -/
def cleanElem (rooted : Bool) (out : List (List Char)) (e : List Char) : List (List Char) :=
  if e = [] ∨ e = ['.'] then out
  else if e = ['.', '.'] then
    match out with
    | [] => if rooted then [] else [e]
    | top :: rest => if top = ['.', '.'] then (if rooted then out else e :: out) else rest
  else e :: out

/-- The function `filepath.Clean` of the Go standard library (Unix). -/
def Clean (path : List Char) : List Char :=
  if path = [] then ['.']
  else
    let rooted : Bool := path.head? = some '/'
    let body := joinSlash ((splitSlash path).foldl (cleanElem rooted) []).reverse
    if rooted then '/' :: body
    else if body = [] then ['.'] else body

/-- The function `filepath.Join` of the Go standard library (Unix): the elements
from the first non-empty one on, joined with `'/'` and cleaned. -/
def Join (elems : List (List Char)) : List Char :=
  match elems.dropWhile (fun e => e = []) with
  | [] => []
  | rest => Clean (joinSlash rest)

/-- The function `getFileName`; `today` is `time.Now().Format("20060102")`, the
current date as read from the clock. -/
def getFileName (today : String) (name : String) : String :=
  String.mk (Join [today.data, name.data])

/-! ### The methods of `module` -/

/-- Call `m.local.Has(name)`. -/
def module.localHas (L : localOps σ) (name : String) (m : module σ) : Bool × module σ :=
  (L.Has m.local_ name, m.log (.localHas name))

/-- Call `m.local.GetFP(name)`. -/
def module.localGetFP (L : localOps σ) (name : String) (m : module σ) :
    Option eFileFP × module σ :=
  (L.GetFP m.local_ name, m.log (.localGetFP name))

/-- Call `m.local.SaveFile(name, buff, hosts...)`. -/
def module.localSaveFile (L : localOps σ) (name : String) (buff : Bytes) (hosts : List String)
    (m : module σ) : Except Error eFileFP × module σ :=
  ((L.SaveFile m.local_ name buff hosts).1,
    { m.log (.localSaveFile name buff hosts) with
      local_ := (L.SaveFile m.local_ name buff hosts).2 })

/-- Call `m.local.Merge(f)`. -/
def module.localMerge (L : localOps σ) (f : eFileFPLists) (m : module σ) :
    (eFileFPLists × List eFileFP × Option Error) × module σ :=
  ((L.Merge m.local_ f).1, { m.log (.localMerge f) with local_ := (L.Merge m.local_ f).2 })

/-- Call `m.local.FPWrite(items)`. -/
def module.localFPWrite (L : localOps σ) (items : eFileFPLists) (m : module σ) :
    Option Error × module σ :=
  ((L.FPWrite m.local_ items).1,
    { m.log (.localFPWrite items) with local_ := (L.FPWrite m.local_ items).2 })

/-- Call `m.remoting.GetFP(name)`. -/
def module.remotingGetFP (R : remotingOps) (name : String) (m : module σ) :
    Except Error eFileFP × module σ :=
  (R.GetFP m.remoting name, m.log (.remotingGetFP name))

/-- Call `m.remoting.Pull(fp)`. -/
def module.remotingPull (R : remotingOps) (fp : eFileFP) (m : module σ) :
    Except Error Bytes × module σ :=
  (R.Pull m.remoting fp, m.log (.remotingPull fp))

/-- Call `m.async.DoReport(f)`: the task is handed over and the call returns. -/
def module.asyncDoReport (f : eFileFPLists) (m : module σ) : module σ :=
  m.log (.asyncDoReport f)

/-- Call `m.async.DoDownload(fp)`: the task is handed over and the call returns. -/
def module.asyncDoDownload (fp : eFileFP) (m : module σ) : module σ :=
  m.log (.asyncDoDownload fp)

/-- The method `module.checkAndDownload`. -/
def module.checkAndDownload (L : localOps σ) (R : remotingOps) (name : String) (m : module σ) :
    Option Error × module σ :=
  match m.localHas L name with
  | (true, m) => (none, m)
  | (false, m) =>
    match m.remotingGetFP R name with
    | (.error err, m) => (some err, m)
    | (.ok fp, m) =>
      match m.remotingPull R fp with
      | (.error err, m) => (some err, m)
      | (.ok buff, m) =>
        match m.localSaveFile L name buff fp.Hosts with
        | (.error err, m) => (some err, m)
        | (.ok fp, m) => (none, m.asyncDoReport fp.GetMAP)

/-- The method `module.HasFile`. -/
def module.HasFile (L : localOps σ) (name : String) (m : module σ) : Option Error × module σ :=
  match m.localHas L name with
  | (true, m) => (none, m)
  | (false, m) => (some (NewError StatusNotFound ("文件" ++ name ++ "不存在")), m)

/-- The method `module.SaveNewFile`; the results are the fingerprint pointer (`none`
for `nil`) and the error (`none` for `nil`). -/
def module.SaveNewFile (L : localOps σ) (today : String) (name : String) (buff : Bytes)
    (m : module σ) : (Option eFileFP × Option Error) × module σ :=
  let name := getFileName today name
  match m.localHas L name with
  | (true, m) => ((none, some (Errorf ("文件名称重复:" ++ name))), m)
  | (false, m) =>
    match m.localSaveFile L name buff [] with
    | (.error err, m) => ((none, some err), m)
    | (.ok fp, m) => ((some fp, none), m.asyncDoReport fp.GetMAP)

/-- The method `module.GetFP`. -/
def module.GetFP (L : localOps σ) (name : String) (m : module σ) :
    (Option eFileFP × Option Error) × module σ :=
  match m.localGetFP L name with
  | (some f, m) => ((some f, none), m)
  | (none, m) => ((none, some (NewError StatusNotFound "文件不存在")), m)

/-- The method `module.RecvNotify`. -/
def module.RecvNotify (L : localOps σ) (f : eFileFPLists) (m : module σ) :
    Option Error × module σ :=
  match m.localMerge L f with
  | ((_, _, some err), m) => (some err, m)
  | ((reports, downloads, none), m) =>
    let m := m.asyncDoReport reports
    let m := downloads.foldl (fun m f => m.asyncDoDownload f) m
    m.localFPWrite L (L.Items m.local_)

/-- The method `module.Query`. -/
def module.Query (L : localOps σ) (m : module σ) : eFileFPLists × module σ :=
  (L.GetFPs m.local_, m.log .localGetFPs)

/-- Modelled from the spec: `remoting.Update` (§4.2) replaces the known peer set,
the master address, the own address and the master flag. -/
def module.remotingUpdate (hosts : List String) (masterHost : String) (currentAddr : String)
    (isMaster : Bool) (m : module σ) : module σ :=
  { m.log (.remotingUpdate hosts masterHost currentAddr isMaster) with
    remoting := { hosts := hosts, masterHost := masterHost, currentAddr := currentAddr,
                  isMaster := isMaster } }

/-- Call `m.local.Update(currentAddr)`. -/
def module.localUpdate (L : localOps σ) (currentAddr : String) (m : module σ) : module σ :=
  { m.log (.localUpdate currentAddr) with local_ := L.Update m.local_ currentAddr }

/-- Call `m.async.DoQuery()`. -/
def module.asyncDoQuery (m : module σ) : module σ := m.log .asyncDoQuery

/-- Call `m.local.Close()`. -/
def module.localClose (L : localOps σ) (m : module σ) : module σ :=
  { m.log .localClose with local_ := L.Close m.local_ }

/-- Call `m.async.Close()`. -/
def module.asyncClose (m : module σ) : module σ := m.log .asyncClose

/-- The method `module.Update`. -/
def module.Update (L : localOps σ) (hosts : List String) (masterHost : String)
    (currentAddr : String) (isMaster : Bool) (m : module σ) : module σ :=
  let m := m.remotingUpdate hosts masterHost currentAddr isMaster
  let m := m.localUpdate L currentAddr
  if isMaster then m.asyncDoQuery else m

/-- The method `module.Close`; `once` records that the `sync.Once` has fired. -/
def module.Close (L : localOps σ) (m : module σ) : Option Error × module σ :=
  if m.once then (none, m)
  else (none, ({ m with once := true }.localClose L).asyncClose)

/-- Modelled from the spec: `newRemoting`, the RemotingClient before the first
`Update`: no peers, no master, not master. -/
def newRemoting : remoting :=
  { hosts := [], masterHost := "", currentAddr := "", isMaster := false }

/-- The function `newModule`, given the LocalStore that `newLocal` built: nothing
has been called yet and `once` has not fired. -/
def newModule (s : σ) : module σ :=
  { local_ := s, remoting := newRemoting, once := false, calls := [] }

/-! ### Checksum -/

/-- The constant `crc64.ISO`, the ISO polynomial in reversed bit order. -/
def crc64ISO : Nat := 0xD800000000000000

/-- One bit of `crc64.MakeTable`: shift right, and fold in the polynomial when the
bit shifted out is set. -/
def crc64Bit (poly : Nat) (crc : Nat) : Nat :=
  if crc % 2 = 1 then (crc / 2) ^^^ poly else crc / 2

/-- Entry `i` of the table built by `crc64.MakeTable(poly)`. -/
def crc64Table (poly : Nat) (i : Nat) : Nat := (crc64Bit poly)^[8] i

/-- One byte of `crc64.Update`: `tab[byte(crc)^v] ^ (crc >> 8)`. -/
def crc64Byte (poly : Nat) (crc : Nat) (v : Fin 256) : Nat :=
  crc64Table poly ((crc % 256) ^^^ v.val) ^^^ (crc / 256)

/-- The function `getCRC64`: `crc64.Checksum(buff, crc64.MakeTable(crc64.ISO))`, on
64-bit words; the running value is complemented before and after. -/
def getCRC64 (buff : Bytes) : Nat :=
  (buff.foldl (crc64Byte crc64ISO) (2 ^ 64 - 1)) ^^^ (2 ^ 64 - 1)

/-! ### The LocalStore, from the specification -/

/-- Modelled from the spec: the outcome of the two kinds of disk write that the
LocalStore of §4.1 performs (`none` is success): writing a file's bytes, and
writing the index file. -/
structure Disk where
  writeFile : String → Bytes → Option Error
  writeIndex : eFileFPLists → Option Error

/-- Modelled from the spec: the state of `local` (the LocalStore of §4.1), declared
in another file of the package: this node's address, the fingerprint index, the
names already scheduled for download ("known anywhere we track"), the index as
last written to the index file, and whether the store is closed. -/
structure LocalStore where
  addr : String
  FPS : eFileFPLists
  tracked : List String
  persisted : eFileFPLists
  closed : Bool
deriving DecidableEq, Repr

/-- Modelled from the spec: union of two host sets (§3 `hosts`); the hosts of `b`
that `a` lacks are added at the end. -/
def unionHosts (a b : List String) : List String :=
  b.foldl (fun acc h => if h ∈ acc then acc else acc ++ [h]) a

/-- Modelled from the spec: the Conflict error of §7 (same name, other checksum). -/
def ConflictError (name : String) : Error := Errorf ("conflict: " ++ name)

/-- Modelled from the spec: set the entry of `name` in an index, replacing an
existing one in place. -/
def indexSet (name : String) (fp : eFileFP) : eFileFPLists → eFileFPLists
  | [] => [(name, fp)]
  | (k, v) :: rest => if k = name then (name, fp) :: rest else (k, v) :: indexSet name fp rest

/-- Modelled from the spec: `newLocal` (§3 FingerprintIndex): the index is loaded
from the index file, an absent file giving the empty index. -/
def LocalStore.newLocal (indexFile : Option eFileFPLists) : LocalStore :=
  { addr := "", FPS := indexFile.getD [], tracked := [], persisted := indexFile.getD [],
    closed := false }

/-- Modelled from the spec: `local.Has` (§4.1): true iff the index contains `name`. -/
def LocalStore.Has (s : LocalStore) (name : String) : Bool := (s.FPS.lookup name).isSome

/-- Modelled from the spec: `local.GetFP` (§4.1): index lookup only. -/
def LocalStore.GetFP (s : LocalStore) (name : String) : Option eFileFP := s.FPS.lookup name

/-- Modelled from the spec: `local.GetFPs` (§4.1): snapshot of the whole index. -/
def LocalStore.GetFPs (s : LocalStore) : eFileFPLists := s.FPS

/-- Modelled from the spec: `local.FPWrite` (§4.1): writes the given index to the
index file; on failure nothing changes. -/
def LocalStore.FPWrite (d : Disk) (s : LocalStore) (index : eFileFPLists) :
    Option Error × LocalStore :=
  match d.writeIndex index with
  | some err => (some err, s)
  | none => (none, { s with persisted := index })

/-- Modelled from the spec: `local.SaveFile` (§4.1, §3, §7, §8).  The bytes are
written first; a failed write returns the write error and leaves the index as it
was.  Then the checksum is computed and the fingerprint built with host set
{this node} ∪ extraHosts.  A name already indexed with another checksum or size is
a Conflict and nothing is overwritten; one indexed with the same content keeps the
hosts it had (host sets never shrink).  The fingerprint is inserted and the index
persisted; a failed index write fails the operation. -/
def LocalStore.SaveFile (d : Disk) (s : LocalStore) (name : String) (buff : Bytes)
    (extraHosts : List String) : Except Error eFileFP × LocalStore :=
  match s.FPS.lookup name with
  | some old =>
    if old.checksum ≠ getCRC64 buff ∨ old.size ≠ buff.length then
      (.error (ConflictError name), s)
    else
      match d.writeFile name buff with
      | some err => (.error err, s)
      | none =>
        let fp : eFileFP :=
          { name := name, checksum := getCRC64 buff, size := buff.length,
            Hosts := unionHosts (unionHosts [s.addr] extraHosts) old.Hosts }
        let s1 := { s with FPS := indexSet name fp s.FPS }
        match LocalStore.FPWrite d s1 s1.FPS with
        | (some err, s2) => (.error err, s2)
        | (none, s2) => (.ok fp, s2)
  | none =>
    match d.writeFile name buff with
    | some err => (.error err, s)
    | none =>
      let fp : eFileFP :=
        { name := name, checksum := getCRC64 buff, size := buff.length,
          Hosts := unionHosts [s.addr] extraHosts }
      let s1 := { s with FPS := indexSet name fp s.FPS }
      match LocalStore.FPWrite d s1 s1.FPS with
      | (some err, s2) => (.error err, s2)
      | (none, s2) => (.ok fp, s2)

/-- Modelled from the spec: one entry of `local.Merge` (§4.1).  A name that is
neither indexed nor tracked is tracked and added to the downloads.  For an indexed
name the host sets are united, the merged record is added to the reports when the
remote entry listed hosts the local record lacked, and a remote checksum other
than the local one is a Conflict: it is kept as the error (the first one wins) and
the remaining entries are still processed. -/
def LocalStore.mergeEntry
    (acc : (eFileFPLists × List eFileFP × Option Error) × LocalStore) (e : String × eFileFP) :
    (eFileFPLists × List eFileFP × Option Error) × LocalStore :=
  match acc with
  | ((reports, downloads, err), s) =>
    match s.FPS.lookup e.1 with
    | none =>
      if e.1 ∈ s.tracked then ((reports, downloads, err), s)
      else ((reports, downloads ++ [e.2], err), { s with tracked := s.tracked ++ [e.1] })
    | some lfp =>
      let err1 : Option Error :=
        if e.2.checksum ≠ lfp.checksum then err.orElse (fun _ => some (ConflictError e.1))
        else err
      let merged : eFileFP := { lfp with Hosts := unionHosts lfp.Hosts e.2.Hosts }
      if merged.Hosts = lfp.Hosts then ((reports, downloads, err1), s)
      else
        ((indexSet e.1 merged reports, downloads, err1),
          { s with FPS := indexSet e.1 merged s.FPS })

/-- Modelled from the spec: `local.Merge` (§4.1): the entries of the inbound batch
are reconciled one by one, in order. -/
def LocalStore.Merge (s : LocalStore) (f : eFileFPLists) :
    (eFileFPLists × List eFileFP × Option Error) × LocalStore :=
  f.foldl LocalStore.mergeEntry (([], [], none), s)

/-- Modelled from the spec: `local.Update` (§4.1): rebinds this node's address. -/
def LocalStore.Update (s : LocalStore) (currentAddr : String) : LocalStore :=
  { s with addr := currentAddr }

/-- Modelled from the spec: `local.Close` (§4.1): flushes the index and releases the
store. -/
def LocalStore.Close (d : Disk) (s : LocalStore) : LocalStore :=
  { (LocalStore.FPWrite d s s.FPS).2 with closed := true }

/-- Modelled from the spec: the operations of the LocalStore of §4.1 over a disk `d`,
as the collaborator `local` of `module`. -/
def LocalStore.ops (d : Disk) : localOps LocalStore :=
  { Has := LocalStore.Has
    GetFP := LocalStore.GetFP
    GetFPs := LocalStore.GetFPs
    Items := LocalStore.GetFPs
    SaveFile := LocalStore.SaveFile d
    Merge := LocalStore.Merge
    FPWrite := LocalStore.FPWrite d
    Update := LocalStore.Update
    Close := LocalStore.Close d }

/-- A disk on which every write succeeds. -/
def goodDisk : Disk := { writeFile := fun _ _ => none, writeIndex := fun _ => none }

/-! ### Sample inputs -/

/-- A disk on which every write fails. -/
def badDisk : Disk :=
  { writeFile := fun _ _ => some (Errorf "write failed"),
    writeIndex := fun _ => some (Errorf "write failed") }

/-- A fingerprint of two bytes held by host `B`, as the master would report it. -/
def fpAtB : eFileFP := { name := "f", checksum := getCRC64 [1, 2], size := 2, Hosts := ["B"] }

/-- A cluster in which the master knows `f` and host `B` serves its two bytes. -/
def clusterWithF : remotingOps :=
  { GetFP := fun _ n => if n = "f" then .ok fpAtB else .error (NewError StatusNotFound "not found")
    Pull := fun _ _ => .ok [1, 2] }

/-- A cluster in which the master knows `f` but no holder can be reached. -/
def clusterPullFails : remotingOps :=
  { GetFP := fun _ _ => .ok fpAtB
    Pull := fun _ _ => .error (Errorf "unreachable") }

/-- A cluster in which nobody has any file. -/
def clusterEmpty : remotingOps :=
  { GetFP := fun _ _ => .error (NewError StatusNotFound "not found")
    Pull := fun _ _ => .error (Errorf "unreachable") }

/-- A fresh module on node `A`: empty index, nothing called yet. -/
def moduleA : module LocalStore := newModule { LocalStore.newLocal none with addr := "A" }

/-- The local record of `k` on node `A`. -/
def fpK : eFileFP := { name := "k", checksum := 5, size := 1, Hosts := ["A"] }

/-- A module on node `A` whose index holds `k` and today's `a.txt`. -/
def moduleWithK : module LocalStore :=
  newModule { LocalStore.newLocal (some [("k", fpK), ("20240101/a.txt", fpK)]) with addr := "A" }

/-- An inbound batch: `k` with another checksum (a conflict) and the unknown `u`. -/
def conflictBatch : eFileFPLists :=
  [("k", { name := "k", checksum := 6, size := 1, Hosts := ["B"] }),
   ("u", { name := "u", checksum := 7, size := 1, Hosts := ["C"] })]

/-- An inbound batch: `k` as held by `B` (same checksum) and the unknown `u`. -/
def cleanBatch : eFileFPLists :=
  [("k", { name := "k", checksum := 5, size := 1, Hosts := ["B"] }),
   ("u", { name := "u", checksum := 7, size := 1, Hosts := ["C"] })]

/-- The results and the final state of `n` successive calls of `module.Close`. -/
def module.CloseN (L : localOps σ) : Nat → module σ → List (Option Error) × module σ
  | 0, m => ([], m)
  | n + 1, m =>
    ((m.Close L).1 :: (module.CloseN L n (m.Close L).2).1, (module.CloseN L n (m.Close L).2).2)

/-- Whether a string is a date as `time.Now().Format("20060102")` prints it: eight
decimal digits. -/
def isDate8 (today : String) : Bool :=
  today.data.length == 8 && today.data.all Char.isDigit

/-- Whether a path element is kept by `filepath.Clean` as it stands: not empty, not
`.` and not `..`. -/
def realElem (e : List Char) : Bool :=
  !(decide (e = [])) && !(decide (e = ['.'])) && !(decide (e = ['.', '.']))

/-- Whether a LocalStore already accounts for every entry of a batch: an indexed name
has all the hosts the entry lists, any other name is tracked. -/
def LocalStore.covers (s : LocalStore) (e : String × eFileFP) : Prop :=
  match s.FPS.lookup e.1 with
  | some lfp => ∀ h ∈ e.2.Hosts, h ∈ lfp.Hosts
  | none => e.1 ∈ s.tracked

end nfs

/-! ## Package `uuid` (components/uuid): worker-bound ID generation -/

namespace uuid

/-- The bit pattern of an `int64`, as a natural number below `2 ^ 64`. -/
def toUint64 (x : Int) : Nat := (x % 2 ^ 64).toNat

/-- The `int64` with a given bit pattern (taken modulo `2 ^ 64`). -/
def toInt64 (n : Nat) : Int :=
  if n % 2 ^ 64 < 2 ^ 63 then ((n % 2 ^ 64 : Nat) : Int) else ((n % 2 ^ 64 : Nat) : Int) - 2 ^ 64

/-- Go `x - y` on `int64`: the difference wraps around. -/
def sub64 (x y : Int) : Int := toInt64 (toUint64 (x - y))

/-- Go `x + y` on `int64`: the sum wraps around. -/
def add64 (x y : Int) : Int := toInt64 (toUint64 (x + y))

/-- Go `x * y` on `int64`: the product wraps around. -/
def mul64 (x y : Int) : Int := toInt64 (toUint64 (x * y))

/-- Go `x << k` on `int64`: bits shifted out at the top are lost. -/
def shl64 (x : Int) (k : Nat) : Int := toInt64 (toUint64 x <<< k)

/-- Go `x | y` on `int64`. -/
def or64 (x y : Int) : Int := toInt64 (toUint64 x ||| toUint64 y)

/-- Go `x ^ y` on `int64` (exclusive or). -/
def xor64 (x y : Int) : Int := toInt64 (toUint64 x ^^^ toUint64 y)

/-- The constant `workerBits`. -/
def workerBits : Nat := 10

/-- The constant `numberBits`. -/
def numberBits : Nat := 12

/-- The constant `workerMax`: `-1 ^ (-1 << workerBits)`. -/
def workerMax : Int := xor64 (-1) (shl64 (-1) workerBits)

/-- The constant `numberMax`: `-1 ^ (-1 << numberBits)`. -/
def numberMax : Int := xor64 (-1) (shl64 (-1) numberBits)

/-- The constant `timeShift`. -/
def timeShift : Nat := workerBits + numberBits

/-- The constant `workerShift`. -/
def workerShift : Nat := numberBits

/-- The constant `epoch`, in milliseconds (2020-01-01 0:0:0). -/
def epoch : Int := 1577808000000

/-- The struct `UUID`, without the registry handle, the mutex and the channels: the
cluster name, the registry root, the millisecond of the last reset, the worker ID
and the sequence number. -/
structure UUID where
  name : String
  root : String
  timestamp : Int
  workerID : Int
  number : Int
deriving DecidableEq, Repr

/-- The expression `int64((now-epoch)<<timeShift | (w.workerID << workerShift) |
(w.number))` of `UUID.Get`. -/
def UUID.makeID (w : UUID) (now : Int) : Int :=
  or64 (or64 (shl64 (sub64 now epoch) timeShift) (shl64 w.workerID workerShift)) w.number

/-- The loop `for now <= w.timestamp { now = time.Now().UnixNano() / 1e6 }` of
`UUID.Get`.  `clock` holds the readings that the coming calls of `time.Now()` return,
in milliseconds; the result is the value of `now` on leaving the loop and the readings
left, or `none` when the readings end before the loop does. -/
def waitNext (timestamp : Int) : Int → List Int → Option (Int × List Int)
  | now, [] => if now ≤ timestamp then none else some (now, [])
  | now, r :: rs => if now ≤ timestamp then waitNext timestamp r rs else some (now, r :: rs)

/-- The method `UUID.Get`.  `clock` holds the readings that the coming calls of
`time.Now()` return, in milliseconds.  The result is the ID, the worker afterwards
and the readings left, or `none` when the readings end before the call returns. -/
def UUID.Get (w : UUID) (clock : List Int) : Option (Int × UUID × List Int) :=
  match clock with
  | [] => none
  | now :: clock =>
    if w.timestamp = now then
      let w := { w with number := add64 w.number 1 }
      if w.number > numberMax then
        match waitNext w.timestamp now clock with
        | none => none
        | some (now, clock) => some (w.makeID now, w, clock)
      else some (w.makeID now, w, clock)
    else
      let w := { w with number := 0, timestamp := now }
      some (w.makeID now, w, clock)

/-- The IDs returned by `n` successive calls of `UUID.Get`, the worker afterwards and
the clock readings left. -/
def UUID.GetN : Nat → UUID → List Int → Option (List Int × UUID × List Int)
  | 0, w, clock => some ([], w, clock)
  | n + 1, w, clock =>
    match w.Get clock with
    | none => none
    | some (id, w, clock) =>
      match UUID.GetN n w clock with
      | none => none
      | some (ids, w, clock) => some (id :: ids, w, clock)

/-- The function `getIndex`: the position of the first child whose name contains
`name`, 0 when there is none. -/
def getIndex (children : List String) (name : String) : Int :=
  match children.findIdx? (fun v => decide (name.data <:+: v.data)) with
  | some i => (i : Int)
  | none => 0

/-- The worker that `NewUUID` builds when the registry lists `children` under the
root (and the watch is set up without error): the worker ID is the index of this
node, made non-negative and reduced modulo `workerMax` when above it (Go's `%`
truncates towards zero). -/
def NewUUID (root name : String) (children : List String) : UUID :=
  let w : UUID := { name := name, root := root, timestamp := 0, workerID := getIndex children name,
                    number := 0 }
  let w := if w.workerID < 0 then { w with workerID := mul64 w.workerID (-1) } else w
  if w.workerID > workerMax then { w with workerID := Int.tmod w.workerID workerMax } else w

/-- A worker with ID 1, as `NewUUID` builds it for the second node of a cluster. -/
def worker1 : UUID := NewUUID "/hydra" "b" ["a", "b"]


/-- A worker with ID 0, as `NewUUID` builds it for the first node of a cluster. -/
def worker0 : UUID := NewUUID "/hydra" "a" ["a", "b"]

/-- Go `x >> k` on `int64`: the arithmetic shift, which rounds towards minus
infinity. -/
def shr64 (x : Int) (k : Nat) : Int := x / 2 ^ k

end uuid

/-! ## Package `conf`: path matching (`match.go`) and response templates
(`sub.conf.response.go`) -/

namespace conf

/-- The call `strings.Split(s, "/")`: the elements between separators, empty ones
included; the empty string gives one empty element. -/
def Split : List Char → List (List Char)
  | [] => [[]]
  | c :: cs =>
    if c = '/' then [] :: Split cs
    else
      match Split cs with
      | [] => [[c]]
      | seg :: segs => (c :: seg) :: segs

/-- The segment `*`. -/
def star : List Char := ['*']

/-- The segment `**`. -/
def dstar : List Char := ['*', '*']

/-- The call `strings.HasSuffix(s, suffix)`. -/
def HasSuffix (s suffix : List Char) : Bool := decide (suffix <:+ s)

/-- A comparison that ignores the case of ASCII letters; `strings.EqualFold` extends
it to all of Unicode.  The theorems take the comparison as a parameter; this one
serves as an instance. -/
def foldASCII (a b : String) : Bool := a.data.map Char.toLower == b.data.map Char.toLower

/-- The struct `PathMatch`: the cache, as the list of its entries in the order they
were added, and the patterns as `NewPathMatch` left them. -/
structure PathMatch where
  cache : List (String × String)
  all : List String
deriving DecidableEq, Repr

/-- The function `NewPathMatch`.  `sort` stands for `sort.Sort(sortString(·))` of the
standard library, which rearranges the patterns. -/
def NewPathMatch (sort : List String → List String) (all : List String) : PathMatch :=
  { cache := [], all := sort all }

/-- The call `cache.SetIfAbsent(k, v)`. -/
def SetIfAbsent (cache : List (String × String)) (k v : String) : List (String × String) :=
  if (cache.lookup k).isSome then cache else cache ++ [(k, v)]

/-- The loop `for j := i + 1; j < uc; j++` of `Match`, on the segments of the pattern
and of the service from position `j` on; the result is `isMatch`.  A `*` segment is
skipped, any other segment must equal the service segment at the same position
(which exists, since `uc <= sc` here). -/
def matchAfterStar : List (List Char) → List (List Char) → Bool
  | [], _ => true
  | up :: ups, sps =>
    if up = star then matchAfterStar ups sps.tail
    else if some up ≠ sps.head? then false
    else matchAfterStar ups sps.tail

/-- The loop `for i := 0; i < uc; i++` of `Match`, on the segments of the pattern and
of the service from position `i` on; the result is whether the loop returned
`true, u`.  A `**` segment matches at once, a `*` segment matches when the inner
loop leaves `isMatch` true, any other segment must equal the service segment at the
same position; running out of pattern segments is no match. -/
def matchSegments : List (List Char) → List (List Char) → Bool
  | [], _ => false
  | up :: ups, sps =>
    if up = dstar then true
    else if up = star then matchAfterStar ups sps.tail
    else if some up ≠ sps.head? then false
    else matchSegments ups sps.tail

/-- The loop `for _, u := range a.all` of `Match`: the first pattern for which the
body returns `true, u`, if any.  `fold` is `strings.EqualFold`. -/
def matchLoop (fold : String → String → Bool) (service : String) (sparties : List (List Char)) :
    List String → Option String
  | [] => none
  | u :: rest =>
    if fold u service then some u
    else if (Split u.data).length ≠ sparties.length ∧ ¬ (HasSuffix u.data dstar = true) then
      matchLoop fold service sparties rest
    else if (Split u.data).length > sparties.length then matchLoop fold service sparties rest
    else if matchSegments (Split u.data) sparties then some u
    else matchLoop fold service sparties rest

/-- Whether the body of the loop of `Match` returns `true, u` for the pattern `u`:
the pattern equals the service ignoring case, or neither of the two `continue`
guards applies and the segment loop returns. -/
def matchBody (fold : String → String → Bool) (service : String) (sparties : List (List Char))
    (u : String) : Bool :=
  fold u service ||
    (!(decide ((Split u.data).length ≠ sparties.length) && !(HasSuffix u.data dstar)) &&
      !(decide ((Split u.data).length > sparties.length)) &&
      matchSegments (Split u.data) sparties)

/-- The method `PathMatch.Match`, with the cache afterwards.  `fold` is
`strings.EqualFold`. -/
def PathMatch.Match (fold : String → String → Bool) (a : PathMatch) (service : String) :
    (Bool × String) × PathMatch :=
  match a.cache.lookup service with
  | some v => ((v != "", v), a)
  | none =>
    match matchLoop fold service (Split service.data) a.all with
    | some u => ((true, u), { a with cache := SetIfAbsent a.cache service u })
    | none => ((false, ""), { a with cache := SetIfAbsent a.cache service "" })

/-- The `PathMatch` after `Match` has been called for each of `services` in turn. -/
def PathMatch.after (fold : String → String → Bool) (a : PathMatch) (services : List String) :
    PathMatch :=
  services.foldl (fun a s => (a.Match fold s).2) a

/-- Whether every cache entry holds what the loop of `Match` finds for its key: the
first matching pattern, or the empty string when no pattern matches. -/
def PathMatch.cacheOK (fold : String → String → Bool) (a : PathMatch) : Prop :=
  ∀ s v, a.cache.lookup s = some v → v = (matchLoop fold s (Split s.data) a.all).getD ""

/-- The relation between a pattern segment and the service segment at the same
position under which a `*` pattern matches: the pattern segment is `*` or the two
are equal. -/
def segAgree (up sp : List Char) : Prop := up = star ∨ up = sp

/-- The position of the first element that satisfies `p`. -/
def firstIdx {α : Type} (p : α → Bool) : List α → Option Nat
  | [] => none
  | x :: xs => if p x then some 0 else (firstIdx p xs).map (· + 1)

/-- The position of the last element that satisfies `p`. -/
def lastIdx {α : Type} (p : α → Bool) : List α → Option Nat
  | [] => none
  | x :: xs =>
    match lastIdx p xs with
    | some i => some (i + 1)
    | none => if p x then some 0 else none

/-- The struct `Template`.  Parameter values are kept as strings; `Params` is `none`
for a nil map. -/
structure Template where
  Params : Option (List (String × String))
  Template : String
  Services : List String
deriving DecidableEq, Repr

/-- The struct `Response`. -/
structure Response where
  Params : List (String × String)
  Templates : List Template
deriving DecidableEq, Repr

/-- The method `Response.Append`, for a template text that parses (otherwise it
panics): without services the template is listed for `*`. -/
def Response.Append (r : Response) (t : String) (service : List String) : Response :=
  let services := if service.length = 0 then ["*"] else service
  { r with Templates := r.Templates ++ [{ Params := none, Template := t, Services := services }] }

/-- The function `NewResponse`, for a template text that parses. -/
def NewResponse (template : String) (service : List String) : Response :=
  ({ Params := [], Templates := [] } : Response).Append template service

/-- The loop `for _, service := range t.Services` of `GetTemplate`, for the template
at position `i`: the value of `last` afterwards, and whether the loop left by
`goto LOOP`.  A pointer to a template is represented by its position in
`r.Templates`. -/
def scanServices (s : String) (i : Nat) : List String → Option Nat → Option Nat × Bool
  | [], last => (last, false)
  | service :: rest, last =>
    if service = s then (some i, true)
    else if service = "*" then scanServices s i rest (some i)
    else scanServices s i rest last

/-- The loop `for _, t := range r.Templates` of `GetTemplate`, from position `i` on:
the value of `last` at the label `LOOP`. -/
def scanTemplates (s : String) : Nat → List Template → Option Nat → Option Nat
  | _, [], last => last
  | i, t :: ts, last =>
    match scanServices s i t.Services last with
    | (last, true) => last
    | (last, false) => scanTemplates s (i + 1) ts last

/-- The statements of `GetTemplate` that fill `last.Params`: a nil map is replaced by
an empty one, then every parameter of the response whose key is missing is added. -/
def fillParams (defaults : List (String × String)) (t : Template) : Template :=
  { t with Params := some (defaults.foldl
      (fun acc kv => if (acc.lookup kv.1).isSome then acc else acc ++ [kv])
      (t.Params.getD [])) }

/-- Apply `f` to the element at position `i`. -/
def modifyAt {α : Type} (f : α → α) : Nat → List α → List α
  | _, [] => []
  | 0, x :: xs => f x :: xs
  | i + 1, x :: xs => x :: modifyAt f i xs

/-- The method `Response.GetTemplate`: the flag, the template returned (a pointer,
represented by its position in `r.Templates`, `none` for nil), and the response
afterwards, in which the parameters of that template have been filled. -/
def Response.GetTemplate (r : Response) (s : String) : (Bool × Option Nat) × Response :=
  match scanTemplates s 0 r.Templates none with
  | none => ((false, none), r)
  | some i => ((true, some i), { r with Templates := modifyAt (fillParams r.Params) i r.Templates })

end conf

/-! ## Package `ras` (registry/conf/server/auth/ras): remote authentication -/

namespace ras

/-- The struct `RASAuth`: the service name and, of the embedded `remotingOption`
(declared in another file of the package), the `Requests` list that `Contains`
reads. -/
structure RASAuth where
  Service : String
  Requests : List String
deriving DecidableEq, Repr

/-- The type `RASAuths`. -/
abbrev RASAuths := List RASAuth

/-- The loop `for _, req := range auth.Requests` of `Contains`, for the auth at
position `i`: the value of `last` afterwards, and whether the loop returned
`true, auth`.  A pointer to an auth is represented by its position in the slice. -/
def scanRequests (p : String) (i : Nat) : List String → Option Nat → Option Nat × Bool
  | [], last => (last, false)
  | req :: rest, last =>
    if req = p then (some i, true)
    else if req = "*" then scanRequests p i rest (some i)
    else scanRequests p i rest last

/-- The loop `for _, auth := range a` of `Contains`, from position `i` on, with the
final `return last != nil, last`. -/
def scanAuths (p : String) : Nat → List RASAuth → Option Nat → Bool × Option Nat
  | _, [], last => (last.isSome, last)
  | i, auth :: rest, last =>
    match scanRequests p i auth.Requests last with
    | (_, true) => (true, some i)
    | (last, false) => scanAuths p (i + 1) rest last

/-- The method `RASAuths.Contains`: the flag and the auth returned (a pointer,
represented by its position in the slice, `none` for nil). -/
def RASAuths.Contains (a : RASAuths) (p : String) : Bool × Option Nat :=
  scanAuths p 0 a none

end ras

/-! ## Package `nfs`: lemmas and theorems -/

namespace nfs

variable {σ : Type}

/-! ### Lemmas on the call log -/

@[simp] theorem log_calls (m : module σ) (c : Call) : (m.log c).calls = m.calls ++ [c] := rfl

@[simp] theorem log_local (m : module σ) (c : Call) : (m.log c).local_ = m.local_ := rfl

@[simp] theorem log_remoting (m : module σ) (c : Call) : (m.log c).remoting = m.remoting := rfl

@[simp] theorem log_once (m : module σ) (c : Call) : (m.log c).once = m.once := rfl

theorem foldl_DoDownload_calls (ds : List eFileFP) (m : module σ) :
    (ds.foldl (fun m f => m.asyncDoDownload f) m).calls
      = m.calls ++ ds.map Call.asyncDoDownload := by
  induction ds generalizing m with
  | nil => simp
  | cons d ds ih =>
    rw [List.foldl_cons, ih]
    simp [module.asyncDoDownload]

theorem foldl_DoDownload_local (ds : List eFileFP) (m : module σ) :
    (ds.foldl (fun m f => m.asyncDoDownload f) m).local_ = m.local_ := by
  induction ds generalizing m with
  | nil => rfl
  | cons d ds ih =>
    rw [List.foldl_cons, ih]
    rfl

theorem filter_isAsync_map_DoDownload (ds : List eFileFP) :
    (ds.map Call.asyncDoDownload).filter Call.isAsync = ds.map Call.asyncDoDownload := by
  induction ds with
  | nil => rfl
  | cons d ds ih => simp [List.filter_cons, Call.isAsync]

/-- The run of `checkAndDownload` on a local hit leaves the result nil and the
LocalStore untouched, for any collaborators. -/
theorem checkAndDownload_hit_run {τ : Type} (L : localOps τ) (R : remotingOps)
    (name : String) (m : module τ) (h : L.Has m.local_ name = true) :
    (m.checkAndDownload L R name).1 = none ∧
      (m.checkAndDownload L R name).2.local_ = m.local_ := by
  simp [module.checkAndDownload, module.localHas, h]

/-- The result of `checkAndDownload` on a local miss, step by step, for any
collaborators. -/
theorem checkAndDownload_miss_result {τ : Type} (L : localOps τ) (R : remotingOps)
    (name : String) (m : module τ) (h : L.Has m.local_ name = false) :
    match R.GetFP m.remoting name with
    | .error err => (m.checkAndDownload L R name).1 = some err
    | .ok fp =>
      match R.Pull m.remoting fp with
      | .error err => (m.checkAndDownload L R name).1 = some err
      | .ok buff =>
        match (L.SaveFile m.local_ name buff fp.Hosts).1 with
        | .error err => (m.checkAndDownload L R name).1 = some err
        | .ok _ => (m.checkAndDownload L R name).1 = none := by
  cases hg : R.GetFP m.remoting name with
  | error err => simp [module.checkAndDownload, module.localHas, module.remotingGetFP, h, hg]
  | ok fp =>
    cases hp : R.Pull m.remoting fp with
    | error err =>
      simp [module.checkAndDownload, module.localHas, module.remotingGetFP,
        module.remotingPull, h, hg, hp]
    | ok buff =>
      cases hs : (L.SaveFile m.local_ name buff fp.Hosts).1 <;>
        simp [module.checkAndDownload, module.localHas, module.remotingGetFP,
          module.remotingPull, module.localSaveFile, module.asyncDoReport, h, hg, hp, hs]

/-! ### Theorems on `module` -/

/-- C1: if the local index already has the date-partitioned form of the name,
`SaveNewFile` returns a nil fingerprint and the duplicate-name error whatever the
bytes are; the only call it makes is the existence check, so `SaveFile` is not
called, nothing is enqueued, and the LocalStore is left as it was. -/
theorem SaveNewFile_rejects_existing (L : localOps σ) (today name : String) (buff : Bytes)
    (m : module σ) (h : L.Has m.local_ (getFileName today name) = true) :
    (m.SaveNewFile L today name buff).1
        = (none, some (Errorf ("文件名称重复:" ++ getFileName today name))) ∧
      (m.SaveNewFile L today name buff).2.calls
        = m.calls ++ [Call.localHas (getFileName today name)] ∧
      (∀ n b hs, Call.localSaveFile n b hs ∈ (m.SaveNewFile L today name buff).2.calls →
        Call.localSaveFile n b hs ∈ m.calls) ∧
      (m.SaveNewFile L today name buff).2.enqueued = m.enqueued ∧
      (m.SaveNewFile L today name buff).2.local_ = m.local_ := by
  simp [module.SaveNewFile, module.localHas, h, module.enqueued, List.filter_append,
    Call.isAsync]

/-- Witness of C1: `20240101/a.txt` is indexed; saving `a.txt` again on that day is
rejected for one content and for another. -/
theorem SaveNewFile_rejects_existing_witness :
    LocalStore.Has moduleWithK.local_ (getFileName "20240101" "a.txt") = true ∧
      (moduleWithK.SaveNewFile (LocalStore.ops goodDisk) "20240101" "a.txt" [1]).1
        = (none, some (Errorf ("文件名称重复:" ++ getFileName "20240101" "a.txt"))) ∧
      (moduleWithK.SaveNewFile (LocalStore.ops goodDisk) "20240101" "a.txt" [2, 3]).1
        = (none, some (Errorf ("文件名称重复:" ++ getFileName "20240101" "a.txt"))) :=
  ⟨by decide,
    (SaveNewFile_rejects_existing (LocalStore.ops goodDisk) "20240101" "a.txt" [1] moduleWithK
      (by decide)).1,
    (SaveNewFile_rejects_existing (LocalStore.ops goodDisk) "20240101" "a.txt" [2, 3]
      moduleWithK (by decide)).1⟩

/-- C2: for a name whose date-partitioned form is absent from the local index,
`SaveNewFile` calls `SaveFile` once, with no extra hosts.  If `SaveFile` returns a
fingerprint, `SaveNewFile` returns that fingerprint with a nil error and enqueues
exactly one `DoReport`, carrying it.  If `SaveFile` fails, `SaveNewFile` returns a
nil fingerprint with that same error and enqueues nothing.  In both cases the
LocalStore is in the state `SaveFile` left. -/
theorem SaveNewFile_absent (L : localOps σ) (today name : String) (buff : Bytes)
    (m : module σ) (h : L.Has m.local_ (getFileName today name) = false) :
    (m.SaveNewFile L today name buff).2.local_
        = (L.SaveFile m.local_ (getFileName today name) buff []).2 ∧
      match (L.SaveFile m.local_ (getFileName today name) buff []).1 with
      | .ok fp =>
        (m.SaveNewFile L today name buff).1 = (some fp, none) ∧
          (m.SaveNewFile L today name buff).2.calls
            = m.calls ++ [Call.localHas (getFileName today name),
                Call.localSaveFile (getFileName today name) buff [],
                Call.asyncDoReport fp.GetMAP] ∧
          (m.SaveNewFile L today name buff).2.enqueued
            = m.enqueued ++ [Call.asyncDoReport fp.GetMAP]
      | .error err =>
        (m.SaveNewFile L today name buff).1 = (none, some err) ∧
          (m.SaveNewFile L today name buff).2.calls
            = m.calls ++ [Call.localHas (getFileName today name),
                Call.localSaveFile (getFileName today name) buff []] ∧
          (m.SaveNewFile L today name buff).2.enqueued = m.enqueued := by
  cases hs : (L.SaveFile m.local_ (getFileName today name) buff []).1 <;>
    simp [module.SaveNewFile, module.localHas, module.localSaveFile, module.asyncDoReport, h,
      hs, module.enqueued, List.filter_append, Call.isAsync]

/-- Witness of C2: on a fresh node, saving `a.txt` succeeds on a good disk and the
fingerprint returned is the one reported; on a failing disk the write error comes
back and nothing is enqueued. -/
theorem SaveNewFile_absent_witness :
    LocalStore.Has moduleA.local_ (getFileName "20240101" "a.txt") = false ∧
      ((moduleA.SaveNewFile (LocalStore.ops goodDisk) "20240101" "a.txt" [1, 2]).1
          = (some { name := "20240101/a.txt", checksum := getCRC64 [1, 2], size := 2,
                    Hosts := ["A"] }, none) ∧
        (moduleA.SaveNewFile (LocalStore.ops goodDisk) "20240101" "a.txt" [1, 2]).2.enqueued
          = [Call.asyncDoReport [("20240101/a.txt",
              { name := "20240101/a.txt", checksum := getCRC64 [1, 2], size := 2,
                Hosts := ["A"] })]]) ∧
      ((moduleA.SaveNewFile (LocalStore.ops badDisk) "20240101" "a.txt" [1, 2]).1
          = (none, some (Errorf "write failed")) ∧
        (moduleA.SaveNewFile (LocalStore.ops badDisk) "20240101" "a.txt" [1, 2]).2.enqueued
          = []) :=
  ⟨by decide,
    ⟨(SaveNewFile_absent (LocalStore.ops goodDisk) "20240101" "a.txt" [1, 2] moduleA
        (by decide)).2.1,
      (SaveNewFile_absent (LocalStore.ops goodDisk) "20240101" "a.txt" [1, 2] moduleA
        (by decide)).2.2.2⟩,
    ⟨(SaveNewFile_absent (LocalStore.ops badDisk) "20240101" "a.txt" [1, 2] moduleA
        (by decide)).2.1,
      (SaveNewFile_absent (LocalStore.ops badDisk) "20240101" "a.txt" [1, 2] moduleA
        (by decide)).2.2.2⟩⟩

/-! ### Lemmas on the index of the LocalStore -/

theorem lookup_isSome_iff_mem_keys (name : String) (l : eFileFPLists) :
    (l.lookup name).isSome = true ↔ name ∈ l.map Prod.fst := by
  induction l with
  | nil => simp
  | cons e l ih =>
    obtain ⟨k, v⟩ := e
    by_cases hk : name = k
    · subst hk
      simp [List.lookup]
    · have hne : (name == k) = false := by simpa using hk
      simp [List.lookup, hne, ih, hk]

theorem lookup_indexSet_self (name : String) (fp : eFileFP) (l : eFileFPLists) :
    (indexSet name fp l).lookup name = some fp := by
  induction l with
  | nil => simp [indexSet, List.lookup]
  | cons e l ih =>
    obtain ⟨k, v⟩ := e
    by_cases hk : k = name
    · simp [indexSet, hk, List.lookup]
    · have hne : (name == k) = false := by
        simpa using fun h : name = k => hk h.symm
      simp [indexSet, hk, List.lookup, hne, ih]

/-- C3: `HasFile` returns nil exactly when `local.Has` answers true, and the
not-found error (status 404) otherwise; its only call is that existence check, so
it makes no remote call and changes nothing in the LocalStore.  On the LocalStore
of the specification this means: nil iff the index contains the name, and on a
node started without an index file every name is not found. -/
theorem HasFile_iff_indexed :
    (∀ (τ : Type) (L : localOps τ) (name : String) (m : module τ),
      (m.HasFile L name).1
          = (if L.Has m.local_ name = true then none
             else some (NewError StatusNotFound ("文件" ++ name ++ "不存在"))) ∧
        ((m.HasFile L name).1 = none ↔ L.Has m.local_ name = true) ∧
        (m.HasFile L name).2.calls = m.calls ++ [Call.localHas name] ∧
        (m.HasFile L name).2.remoteCalls = m.remoteCalls ∧
        (m.HasFile L name).2.local_ = m.local_) ∧
      (∀ (d : Disk) (name : String) (m : module LocalStore),
        ((m.HasFile (LocalStore.ops d) name).1 = none ↔ name ∈ m.local_.FPS.map Prod.fst) ∧
          ((m.HasFile (LocalStore.ops d) name).1 = none ∨
            (m.HasFile (LocalStore.ops d) name).1
              = some { code := some 404, msg := "文件" ++ name ++ "不存在" })) ∧
      (∀ (d : Disk) (name : String),
        ((newModule (LocalStore.newLocal none)).HasFile (LocalStore.ops d) name).1
          = some { code := some 404, msg := "文件" ++ name ++ "不存在" }) := by
  have gen : ∀ (τ : Type) (L : localOps τ) (name : String) (m : module τ),
      (m.HasFile L name).1
          = (if L.Has m.local_ name = true then none
             else some (NewError StatusNotFound ("文件" ++ name ++ "不存在"))) ∧
        ((m.HasFile L name).1 = none ↔ L.Has m.local_ name = true) ∧
        (m.HasFile L name).2.calls = m.calls ++ [Call.localHas name] ∧
        (m.HasFile L name).2.remoteCalls = m.remoteCalls ∧
        (m.HasFile L name).2.local_ = m.local_ := by
    intro τ L name m
    cases hh : L.Has m.local_ name <;>
      simp [module.HasFile, module.localHas, hh, module.remoteCalls, List.filter_append,
        Call.isRemoting]
  refine ⟨gen, ?_, ?_⟩
  · intro d name m
    have g := gen LocalStore (LocalStore.ops d) name m
    refine ⟨?_, ?_⟩
    · rw [g.2.1]
      exact lookup_isSome_iff_mem_keys name m.local_.FPS
    · rw [g.1]
      by_cases hh : (LocalStore.ops d).Has m.local_ name = true
      · simp [hh]
      · simp [hh, NewError, StatusNotFound]
  · intro d name
    rw [(gen LocalStore (LocalStore.ops d) name _).1]
    rfl

/-- C4: `GetFP` returns the fingerprint that `local.GetFP` finds, with a nil error,
and a nil fingerprint with the not-found error (status 404) when it finds none.
Its only call is that local lookup: nothing goes to the RemotingClient, nothing is
enqueued, the LocalStore is unchanged, and the outcome is the same for every cluster
view, master or secondary. -/
theorem GetFP_local_only (L : localOps σ) (name : String) (m : module σ) :
    (m.GetFP L name).1
        = (match L.GetFP m.local_ name with
           | some f => (some f, none)
           | none => (none, some { code := some 404, msg := "文件不存在" })) ∧
      (m.GetFP L name).2.calls = m.calls ++ [Call.localGetFP name] ∧
      (m.GetFP L name).2.remoteCalls = m.remoteCalls ∧
      (m.GetFP L name).2.enqueued = m.enqueued ∧
      (m.GetFP L name).2.local_ = m.local_ ∧
      (∀ (hosts : List String) (masterHost currentAddr : String) (isMaster : Bool),
        (({ m with remoting := { hosts := hosts, masterHost := masterHost,
                                 currentAddr := currentAddr, isMaster := isMaster } }
            ).GetFP L name).1 = (m.GetFP L name).1) := by
  cases hg : L.GetFP m.local_ name <;>
    simp [module.GetFP, module.localGetFP, hg, module.remoteCalls, module.enqueued,
      List.filter_append, Call.isRemoting, Call.isAsync, NewError, StatusNotFound, module.log]

/-- C5: for a name that `local.Has` already finds, `checkAndDownload` returns nil
after that one check: no remote `GetFP`, no `Pull`, no `SaveFile`, no `DoReport`,
and the LocalStore (its index included) is left as it was. -/
theorem checkAndDownload_local_hit (L : localOps σ) (R : remotingOps) (name : String)
    (m : module σ) (h : L.Has m.local_ name = true) :
    (m.checkAndDownload L R name).1 = none ∧
      (m.checkAndDownload L R name).2.calls = m.calls ++ [Call.localHas name] ∧
      (m.checkAndDownload L R name).2.remoteCalls = m.remoteCalls ∧
      (m.checkAndDownload L R name).2.enqueued = m.enqueued ∧
      (m.checkAndDownload L R name).2.local_ = m.local_ := by
  simp [module.checkAndDownload, module.localHas, h, module.remoteCalls, module.enqueued,
    List.filter_append, Call.isRemoting, Call.isAsync]

/-- Witness of C5: `k` is indexed on node `A`; asking for it touches neither the
cluster nor the index. -/
theorem checkAndDownload_local_hit_witness :
    LocalStore.Has moduleWithK.local_ "k" = true ∧
      (moduleWithK.checkAndDownload (LocalStore.ops goodDisk) clusterWithF "k").1 = none ∧
      (moduleWithK.checkAndDownload (LocalStore.ops goodDisk) clusterWithF "k").2.calls
        = moduleWithK.calls ++ [Call.localHas "k"] ∧
      (moduleWithK.checkAndDownload (LocalStore.ops goodDisk) clusterWithF "k").2.local_
        = moduleWithK.local_ :=
  ⟨by decide,
    (checkAndDownload_local_hit (LocalStore.ops goodDisk) clusterWithF "k" moduleWithK
      (by decide)).1,
    (checkAndDownload_local_hit (LocalStore.ops goodDisk) clusterWithF "k" moduleWithK
      (by decide)).2.1,
    (checkAndDownload_local_hit (LocalStore.ops goodDisk) clusterWithF "k" moduleWithK
      (by decide)).2.2.2.2⟩

/-- C6: for a name that `local.Has` does not find, `checkAndDownload` stops at the
first failing step and returns its error.  If the remote `GetFP` fails, neither
`Pull` nor `SaveFile` nor `DoReport` follows; if `Pull` fails, neither `SaveFile`
nor `DoReport` follows; if `SaveFile` fails, no `DoReport` is enqueued.  In each
case the log holds the calls up to the failing one and nothing is enqueued. -/
theorem checkAndDownload_first_error (L : localOps σ) (R : remotingOps) (name : String)
    (m : module σ) (h : L.Has m.local_ name = false) :
    match R.GetFP m.remoting name with
    | .error err =>
      (m.checkAndDownload L R name).1 = some err ∧
        (m.checkAndDownload L R name).2.calls
          = m.calls ++ [Call.localHas name, Call.remotingGetFP name] ∧
        (m.checkAndDownload L R name).2.enqueued = m.enqueued ∧
        (m.checkAndDownload L R name).2.local_ = m.local_
    | .ok fp =>
      match R.Pull m.remoting fp with
      | .error err =>
        (m.checkAndDownload L R name).1 = some err ∧
          (m.checkAndDownload L R name).2.calls
            = m.calls ++ [Call.localHas name, Call.remotingGetFP name, Call.remotingPull fp] ∧
          (m.checkAndDownload L R name).2.enqueued = m.enqueued ∧
          (m.checkAndDownload L R name).2.local_ = m.local_
      | .ok buff =>
        match (L.SaveFile m.local_ name buff fp.Hosts).1 with
        | .error err =>
          (m.checkAndDownload L R name).1 = some err ∧
            (m.checkAndDownload L R name).2.calls
              = m.calls ++ [Call.localHas name, Call.remotingGetFP name, Call.remotingPull fp,
                  Call.localSaveFile name buff fp.Hosts] ∧
            (m.checkAndDownload L R name).2.enqueued = m.enqueued
        | .ok _ => (m.checkAndDownload L R name).1 = none := by
  cases hg : R.GetFP m.remoting name with
  | error err =>
    simp [module.checkAndDownload, module.localHas, module.remotingGetFP, h, hg,
      module.enqueued, List.filter_append, Call.isAsync]
  | ok fp =>
    cases hp : R.Pull m.remoting fp with
    | error err =>
      simp [module.checkAndDownload, module.localHas, module.remotingGetFP,
        module.remotingPull, h, hg, hp, module.enqueued, List.filter_append, Call.isAsync]
    | ok buff =>
      cases hs : (L.SaveFile m.local_ name buff fp.Hosts).1 <;>
        simp [module.checkAndDownload, module.localHas, module.remotingGetFP,
          module.remotingPull, module.localSaveFile, module.asyncDoReport, h, hg, hp, hs,
          module.enqueued, List.filter_append, Call.isAsync]

/-- Witness of C6: on a fresh node `f` is absent; with nobody holding it the remote
`GetFP` error comes back, with an unreachable holder the `Pull` error, and with a
failing disk the `SaveFile` error. -/
theorem checkAndDownload_first_error_witness :
    LocalStore.Has moduleA.local_ "f" = false ∧
      (moduleA.checkAndDownload (LocalStore.ops goodDisk) clusterEmpty "f").1
        = some (NewError StatusNotFound "not found") ∧
      ((moduleA.checkAndDownload (LocalStore.ops goodDisk) clusterPullFails "f").1
          = some (Errorf "unreachable") ∧
        (moduleA.checkAndDownload (LocalStore.ops goodDisk) clusterPullFails "f").2.calls
          = [Call.localHas "f", Call.remotingGetFP "f", Call.remotingPull fpAtB]) ∧
      ((moduleA.checkAndDownload (LocalStore.ops badDisk) clusterWithF "f").1
          = some (Errorf "write failed") ∧
        (moduleA.checkAndDownload (LocalStore.ops badDisk) clusterWithF "f").2.enqueued
          = []) :=
  ⟨by decide,
    (checkAndDownload_first_error (LocalStore.ops goodDisk) clusterEmpty "f" moduleA
      (by decide)).1,
    ⟨(checkAndDownload_first_error (LocalStore.ops goodDisk) clusterPullFails "f" moduleA
        (by decide)).1,
      (checkAndDownload_first_error (LocalStore.ops goodDisk) clusterPullFails "f" moduleA
        (by decide)).2.1⟩,
    ⟨(checkAndDownload_first_error (LocalStore.ops badDisk) clusterWithF "f" moduleA
        (by decide)).1,
      (checkAndDownload_first_error (LocalStore.ops badDisk) clusterWithF "f" moduleA
        (by decide)).2.2⟩⟩

/-! ### Lemmas on `SaveFile` of the LocalStore -/

theorem mem_unionHosts (h : String) (a b : List String) :
    h ∈ unionHosts a b ↔ h ∈ a ∨ h ∈ b := by
  unfold unionHosts
  induction b generalizing a with
  | nil => simp
  | cons x b ih =>
    rw [List.foldl_cons, ih]
    by_cases hx : x ∈ a
    · simp only [hx, if_true, List.mem_cons]
      constructor
      · rintro (h1 | h1)
        · exact Or.inl h1
        · exact Or.inr (Or.inr h1)
      · rintro (h1 | h1 | h1)
        · exact Or.inl h1
        · exact Or.inl (h1 ▸ hx)
        · exact Or.inr h1
    · simp only [hx, if_false, List.mem_append, List.mem_singleton, List.mem_cons]
      tauto

theorem SaveFile_ok_absent (d : Disk) (s : LocalStore) (name : String) (buff : Bytes)
    (hosts : List String) (fp : eFileFP) (hno : s.FPS.lookup name = none)
    (h : (LocalStore.SaveFile d s name buff hosts).1 = .ok fp) :
    fp = { name := name, checksum := getCRC64 buff, size := buff.length,
           Hosts := unionHosts [s.addr] hosts } := by
  unfold LocalStore.SaveFile at h
  rw [hno] at h
  cases hw : d.writeFile name buff with
  | some err => simp [hw] at h
  | none =>
    simp only [hw, LocalStore.FPWrite] at h
    cases hi : d.writeIndex
        (indexSet name
          { name := name, checksum := getCRC64 buff, size := buff.length,
            Hosts := unionHosts [s.addr] hosts } s.FPS) with
    | some err => simp [hi] at h
    | none =>
      simp only [hi, Except.ok.injEq] at h
      exact h.symm

theorem SaveFile_ok_Has (d : Disk) (s : LocalStore) (name : String) (buff : Bytes)
    (hosts : List String) (fp : eFileFP)
    (h : (LocalStore.SaveFile d s name buff hosts).1 = .ok fp) :
    LocalStore.Has (LocalStore.SaveFile d s name buff hosts).2 name = true := by
  unfold LocalStore.SaveFile at h ⊢
  cases hl : s.FPS.lookup name with
  | some old =>
    simp only [hl] at h ⊢
    by_cases hc : old.checksum ≠ getCRC64 buff ∨ old.size ≠ buff.length
    · simp [hc] at h
    · simp only [hc, if_false] at h ⊢
      cases hw : d.writeFile name buff with
      | some err => simp [hw] at h
      | none =>
        simp only [hw, LocalStore.FPWrite] at h ⊢
        cases hi : d.writeIndex
            (indexSet name
              { name := name, checksum := getCRC64 buff, size := buff.length,
                Hosts := unionHosts (unionHosts [s.addr] hosts) old.Hosts } s.FPS) with
        | some err => simp [hi] at h
        | none => simp [hi, LocalStore.Has, lookup_indexSet_self]
  | none =>
    simp only [hl] at h ⊢
    cases hw : d.writeFile name buff with
    | some err => simp [hw] at h
    | none =>
      simp only [hw, LocalStore.FPWrite] at h ⊢
      cases hi : d.writeIndex
          (indexSet name
            { name := name, checksum := getCRC64 buff, size := buff.length,
              Hosts := unionHosts [s.addr] hosts } s.FPS) with
      | some err => simp [hi] at h
      | none => simp [hi, LocalStore.Has, lookup_indexSet_self]

/-- The successful run of `checkAndDownload` through all four steps, for any
collaborators. -/
theorem checkAndDownload_fetch_run {τ : Type} (L : localOps τ) (R : remotingOps)
    (name : String) (m : module τ) (fp : eFileFP) (buff : Bytes) (fp2 : eFileFP)
    (hHas : L.Has m.local_ name = false) (hGet : R.GetFP m.remoting name = .ok fp)
    (hPull : R.Pull m.remoting fp = .ok buff)
    (hSave : (L.SaveFile m.local_ name buff fp.Hosts).1 = .ok fp2) :
    (m.checkAndDownload L R name).1 = none ∧
      (m.checkAndDownload L R name).2.calls
        = m.calls ++ [Call.localHas name, Call.remotingGetFP name, Call.remotingPull fp,
            Call.localSaveFile name buff fp.Hosts, Call.asyncDoReport fp2.GetMAP] ∧
      (m.checkAndDownload L R name).2.local_ = (L.SaveFile m.local_ name buff fp.Hosts).2 := by
  simp [module.checkAndDownload, module.localHas, module.remotingGetFP, module.remotingPull,
    module.localSaveFile, module.asyncDoReport, hHas, hGet, hPull, hSave]

/-- C7: for a name absent from the index, with the remote `GetFP` answering `fp`,
`Pull fp` answering the bytes `buff` and `SaveFile` succeeding, `checkAndDownload`
returns nil, calls `SaveFile` with exactly the name, `buff` and all hosts of `fp`
as extra hosts, and enqueues exactly one `DoReport`, carrying the fingerprint that
`SaveFile` returned.  That fingerprint has the checksum and size of `buff`, and its
host set is this node united with the hosts of `fp`, so it contains this node's
address. -/
theorem checkAndDownload_fetch (d : Disk) (R : remotingOps) (name : String)
    (m : module LocalStore) (fp : eFileFP) (buff : Bytes) (fp2 : eFileFP)
    (hHas : LocalStore.Has m.local_ name = false)
    (hGet : R.GetFP m.remoting name = .ok fp)
    (hPull : R.Pull m.remoting fp = .ok buff)
    (hSave : (LocalStore.SaveFile d m.local_ name buff fp.Hosts).1 = .ok fp2) :
    (m.checkAndDownload (LocalStore.ops d) R name).1 = none ∧
      (m.checkAndDownload (LocalStore.ops d) R name).2.calls
        = m.calls ++ [Call.localHas name, Call.remotingGetFP name, Call.remotingPull fp,
            Call.localSaveFile name buff fp.Hosts, Call.asyncDoReport fp2.GetMAP] ∧
      (m.checkAndDownload (LocalStore.ops d) R name).2.enqueued
        = m.enqueued ++ [Call.asyncDoReport [(name, fp2)]] ∧
      fp2 = { name := name, checksum := getCRC64 buff, size := buff.length,
              Hosts := unionHosts [m.local_.addr] fp.Hosts } ∧
      m.local_.addr ∈ fp2.Hosts ∧
      (∀ h, h ∈ fp2.Hosts ↔ h = m.local_.addr ∨ h ∈ fp.Hosts) := by
  have run := checkAndDownload_fetch_run (LocalStore.ops d) R name m fp buff fp2 hHas hGet
    hPull hSave
  have hno : m.local_.FPS.lookup name = none := by
    simpa [LocalStore.Has] using hHas
  have hfp := SaveFile_ok_absent d m.local_ name buff fp.Hosts fp2 hno hSave
  have hmem : ∀ h, h ∈ fp2.Hosts ↔ h = m.local_.addr ∨ h ∈ fp.Hosts := by
    intro h
    rw [hfp]
    simp [mem_unionHosts]
  refine ⟨run.1, run.2.1, ?_, hfp, (hmem _).2 (Or.inl rfl), hmem⟩
  have hname : fp2.GetMAP = [(name, fp2)] := by
    rw [hfp]
    rfl
  rw [module.enqueued, run.2.1, ← hname]
  simp [module.enqueued, List.filter_append, Call.isAsync]

/-- Witness of C7: node `A` lacks `f`, the master answers that `B` holds it, the
pull and the save succeed; the one report carries `f` with hosts `A` and `B`. -/
theorem checkAndDownload_fetch_witness :
    (moduleA.checkAndDownload (LocalStore.ops goodDisk) clusterWithF "f").1 = none ∧
      (moduleA.checkAndDownload (LocalStore.ops goodDisk) clusterWithF "f").2.enqueued
        = moduleA.enqueued ++ [Call.asyncDoReport [("f",
            { name := "f", checksum := getCRC64 [1, 2], size := 2, Hosts := ["A", "B"] })]] ∧
      "A" ∈ ["A", "B"] :=
  ⟨(checkAndDownload_fetch goodDisk clusterWithF "f" moduleA fpAtB [1, 2]
      { name := "f", checksum := getCRC64 [1, 2], size := 2, Hosts := ["A", "B"] }
      (by decide) rfl rfl rfl).1,
    (checkAndDownload_fetch goodDisk clusterWithF "f" moduleA fpAtB [1, 2]
      { name := "f", checksum := getCRC64 [1, 2], size := 2, Hosts := ["A", "B"] }
      (by decide) rfl rfl rfl).2.2.1,
    (checkAndDownload_fetch goodDisk clusterWithF "f" moduleA fpAtB [1, 2]
      { name := "f", checksum := getCRC64 [1, 2], size := 2, Hosts := ["A", "B"] }
      (by decide) rfl rfl rfl).2.2.2.2.1⟩

/-- C8: if `checkAndDownload(name)` returns nil, the `HasFile(name)` that follows
returns nil, whether the name was already indexed or the file was fetched from a
peer and saved. -/
theorem HasFile_after_checkAndDownload (d : Disk) (R : remotingOps) (name : String)
    (m : module LocalStore) (h : (m.checkAndDownload (LocalStore.ops d) R name).1 = none) :
    ((m.checkAndDownload (LocalStore.ops d) R name).2.HasFile (LocalStore.ops d) name).1
      = none := by
  have key : LocalStore.Has (m.checkAndDownload (LocalStore.ops d) R name).2.local_ name
      = true := by
    cases hHas : LocalStore.Has m.local_ name with
    | true =>
      rw [(checkAndDownload_hit_run (LocalStore.ops d) R name m hHas).2]
      exact hHas
    | false =>
      have first := checkAndDownload_miss_result (LocalStore.ops d) R name m hHas
      cases hg : R.GetFP m.remoting name with
      | error err =>
        rw [hg] at first
        rw [first] at h
        cases h
      | ok fp =>
        rw [hg] at first
        cases hp : R.Pull m.remoting fp with
        | error err =>
          simp only [hp] at first
          rw [first] at h
          cases h
        | ok buff =>
          simp only [hp] at first
          cases hs : (LocalStore.SaveFile d m.local_ name buff fp.Hosts).1 with
          | error err =>
            have hs2 : ((LocalStore.ops d).SaveFile m.local_ name buff fp.Hosts).1
                = .error err := hs
            simp only [hs2] at first
            rw [first] at h
            cases h
          | ok fp2 =>
            rw [(checkAndDownload_fetch_run (LocalStore.ops d) R name m fp buff fp2 hHas hg hp
              hs).2.2]
            exact SaveFile_ok_Has d m.local_ name buff fp.Hosts fp2 hs
  simp only [module.HasFile, module.localHas]
  have key2 : (LocalStore.ops d).Has (m.checkAndDownload (LocalStore.ops d) R name).2.local_
      name = true := key
  simp [key2]

/-- Witness of C8: on node `A`, fetching `f` from `B` succeeds and `f` is then
found; asking for the already indexed `k` succeeds and `k` is still found. -/
theorem HasFile_after_checkAndDownload_witness :
    ((moduleA.checkAndDownload (LocalStore.ops goodDisk) clusterWithF "f").1 = none ∧
        ((moduleA.checkAndDownload (LocalStore.ops goodDisk) clusterWithF "f").2.HasFile
          (LocalStore.ops goodDisk) "f").1 = none) ∧
      ((moduleWithK.checkAndDownload (LocalStore.ops goodDisk) clusterEmpty "k").1 = none ∧
        ((moduleWithK.checkAndDownload (LocalStore.ops goodDisk) clusterEmpty "k").2.HasFile
          (LocalStore.ops goodDisk) "k").1 = none) :=
  ⟨⟨by decide,
      HasFile_after_checkAndDownload goodDisk clusterWithF "f" moduleA (by decide)⟩,
    ⟨by decide,
      HasFile_after_checkAndDownload goodDisk clusterEmpty "k" moduleWithK (by decide)⟩⟩


theorem lookup_indexSet_ne (n name : String) (fp : eFileFP) (l : eFileFPLists) (hn : n ≠ name) :
    (indexSet name fp l).lookup n = l.lookup n := by
  induction l with
  | nil =>
    have hne : (n == name) = false := by simpa using hn
    simp [indexSet, List.lookup, hne]
  | cons e l ih =>
    obtain ⟨k, v⟩ := e
    by_cases hk : k = name
    · subst hk
      have hne : (n == k) = false := by simpa using hn
      simp [indexSet, List.lookup, hne]
    · by_cases hnk : n = k
      · subst hnk
        simp [indexSet, hk, List.lookup]
      · have hne : (n == k) = false := by simpa using hnk
        simp [indexSet, hk, List.lookup, hne, ih]

/-- One step of `Merge` on a name the index lacks. -/
theorem mergeEntry_unknown (reports : eFileFPLists) (downloads : List eFileFP)
    (err : Option Error) (s : LocalStore) (e : String × eFileFP)
    (hl : s.FPS.lookup e.1 = none) :
    LocalStore.mergeEntry ((reports, downloads, err), s) e
      = if e.1 ∈ s.tracked then ((reports, downloads, err), s)
        else ((reports, downloads ++ [e.2], err), { s with tracked := s.tracked ++ [e.1] }) := by
  simp only [LocalStore.mergeEntry, hl]

/-- One step of `Merge` on a name the index has. -/
theorem mergeEntry_known (reports : eFileFPLists) (downloads : List eFileFP)
    (err : Option Error) (s : LocalStore) (e : String × eFileFP) (lfp : eFileFP)
    (hl : s.FPS.lookup e.1 = some lfp) :
    LocalStore.mergeEntry ((reports, downloads, err), s) e
      = if unionHosts lfp.Hosts e.2.Hosts = lfp.Hosts then
          ((reports, downloads,
            if e.2.checksum ≠ lfp.checksum then err.orElse (fun _ => some (ConflictError e.1))
            else err), s)
        else
          ((indexSet e.1 { lfp with Hosts := unionHosts lfp.Hosts e.2.Hosts } reports, downloads,
            if e.2.checksum ≠ lfp.checksum then err.orElse (fun _ => some (ConflictError e.1))
            else err),
            { s with FPS := indexSet e.1 { lfp with Hosts := unionHosts lfp.Hosts e.2.Hosts }
                              s.FPS }) := by
  simp only [LocalStore.mergeEntry, hl]

/-- One step of `Merge` keeps the persisted index. -/
theorem mergeEntry_persisted (acc : (eFileFPLists × List eFileFP × Option Error) × LocalStore)
    (e : String × eFileFP) :
    (LocalStore.mergeEntry acc e).2.persisted = acc.2.persisted := by
  obtain ⟨⟨reports, downloads, err⟩, s⟩ := acc
  cases hl : s.FPS.lookup e.1 with
  | none =>
    rw [mergeEntry_unknown _ _ _ _ _ hl]
    split <;> rfl
  | some lfp =>
    rw [mergeEntry_known _ _ _ _ _ _ hl]
    split <;> rfl

/-- One step of `Merge` keeps every indexed name indexed, with its checksum. -/
theorem mergeEntry_checksum (acc : (eFileFPLists × List eFileFP × Option Error) × LocalStore)
    (e : String × eFileFP) (n : String) (lfp : eFileFP) (h : acc.2.FPS.lookup n = some lfp) :
    ∃ lfp2, (LocalStore.mergeEntry acc e).2.FPS.lookup n = some lfp2 ∧
      lfp2.checksum = lfp.checksum := by
  obtain ⟨⟨reports, downloads, err⟩, s⟩ := acc
  have h1 : s.FPS.lookup n = some lfp := h
  cases hl : s.FPS.lookup e.1 with
  | none =>
    rw [mergeEntry_unknown _ _ _ _ _ hl]
    split <;> exact ⟨lfp, h1, rfl⟩
  | some l1 =>
    rw [mergeEntry_known _ _ _ _ _ _ hl]
    split
    · exact ⟨lfp, h1, rfl⟩
    · by_cases hn : n = e.1
      · subst hn
        have hEq : l1 = lfp := by
          rw [hl] at h1
          exact Option.some.inj h1
        refine ⟨_, lookup_indexSet_self _ _ _, ?_⟩
        rw [hEq]
      · refine ⟨lfp, ?_, rfl⟩
        show (indexSet e.1 _ s.FPS).lookup n = some lfp
        rw [lookup_indexSet_ne n e.1 _ _ hn]
        exact h1

/-- One step of `Merge` indexes no new name. -/
theorem mergeEntry_lookup_none (acc : (eFileFPLists × List eFileFP × Option Error) × LocalStore)
    (e : String × eFileFP) (n : String) (h : acc.2.FPS.lookup n = none) :
    (LocalStore.mergeEntry acc e).2.FPS.lookup n = none := by
  obtain ⟨⟨reports, downloads, err⟩, s⟩ := acc
  have h1 : s.FPS.lookup n = none := h
  cases hl : s.FPS.lookup e.1 with
  | none =>
    rw [mergeEntry_unknown _ _ _ _ _ hl]
    split <;> exact h1
  | some l1 =>
    rw [mergeEntry_known _ _ _ _ _ _ hl]
    split
    · exact h1
    · have hn : n ≠ e.1 := by
        intro hn
        rw [hn, hl] at h1
        cases h1
      show (indexSet e.1 _ s.FPS).lookup n = none
      rw [lookup_indexSet_ne n e.1 _ _ hn]
      exact h1

/-- One step of `Merge` keeps an error already recorded. -/
theorem mergeEntry_error_kept (acc : (eFileFPLists × List eFileFP × Option Error) × LocalStore)
    (e : String × eFileFP) (x : Error) (h : acc.1.2.2 = some x) :
    (LocalStore.mergeEntry acc e).1.2.2 = some x := by
  obtain ⟨⟨reports, downloads, err⟩, s⟩ := acc
  have h1 : err = some x := h
  subst h1
  cases hl : s.FPS.lookup e.1 with
  | none =>
    rw [mergeEntry_unknown _ _ _ _ _ hl]
    split <;> rfl
  | some l1 =>
    rw [mergeEntry_known _ _ _ _ _ _ hl]
    split <;> split <;> rfl

/-- One step of `Merge` on a conflicting entry records an error. -/
theorem mergeEntry_conflict (acc : (eFileFPLists × List eFileFP × Option Error) × LocalStore)
    (e : String × eFileFP) (lfp : eFileFP) (h : acc.2.FPS.lookup e.1 = some lfp)
    (hc : e.2.checksum ≠ lfp.checksum) :
    ∃ x, (LocalStore.mergeEntry acc e).1.2.2 = some x := by
  obtain ⟨⟨reports, downloads, err⟩, s⟩ := acc
  have h2 : s.FPS.lookup e.1 = some lfp := h
  rw [mergeEntry_known _ _ _ _ _ _ h2]
  cases err with
  | none => split <;> simp [hc, Option.orElse]
  | some x => split <;> simp [hc, Option.orElse]

/-- One step of `Merge` keeps the downloads listed so far. -/
theorem mergeEntry_downloads_kept
    (acc : (eFileFPLists × List eFileFP × Option Error) × LocalStore) (e : String × eFileFP)
    (fp : eFileFP) (h : fp ∈ acc.1.2.1) : fp ∈ (LocalStore.mergeEntry acc e).1.2.1 := by
  obtain ⟨⟨reports, downloads, err⟩, s⟩ := acc
  have h1 : fp ∈ downloads := h
  cases hl : s.FPS.lookup e.1 with
  | none =>
    rw [mergeEntry_unknown _ _ _ _ _ hl]
    split
    · exact h1
    · exact List.mem_append_left _ h1
  | some l1 =>
    rw [mergeEntry_known _ _ _ _ _ _ hl]
    split <;> exact h1

/-- One step of `Merge` tracks at most the name of its entry. -/
theorem mergeEntry_tracked (acc : (eFileFPLists × List eFileFP × Option Error) × LocalStore)
    (e : String × eFileFP) (n : String) (hn : n ≠ e.1) (h : n ∉ acc.2.tracked) :
    n ∉ (LocalStore.mergeEntry acc e).2.tracked := by
  obtain ⟨⟨reports, downloads, err⟩, s⟩ := acc
  have h1 : n ∉ s.tracked := h
  cases hl : s.FPS.lookup e.1 with
  | none =>
    rw [mergeEntry_unknown _ _ _ _ _ hl]
    split
    · exact h1
    · simp [h1, hn]
  | some l1 =>
    rw [mergeEntry_known _ _ _ _ _ _ hl]
    split <;> exact h1

theorem foldl_mergeEntry_persisted (f : eFileFPLists)
    (acc : (eFileFPLists × List eFileFP × Option Error) × LocalStore) :
    (f.foldl LocalStore.mergeEntry acc).2.persisted = acc.2.persisted := by
  induction f generalizing acc with
  | nil => rfl
  | cons e f ih => rw [List.foldl_cons, ih, mergeEntry_persisted]

theorem foldl_mergeEntry_error_kept (f : eFileFPLists)
    (acc : (eFileFPLists × List eFileFP × Option Error) × LocalStore) (x : Error)
    (h : acc.1.2.2 = some x) : (f.foldl LocalStore.mergeEntry acc).1.2.2 = some x := by
  induction f generalizing acc with
  | nil => exact h
  | cons e f ih =>
    rw [List.foldl_cons]
    exact ih _ (mergeEntry_error_kept acc e x h)

theorem foldl_mergeEntry_downloads_kept (f : eFileFPLists)
    (acc : (eFileFPLists × List eFileFP × Option Error) × LocalStore) (fp : eFileFP)
    (h : fp ∈ acc.1.2.1) : fp ∈ (f.foldl LocalStore.mergeEntry acc).1.2.1 := by
  induction f generalizing acc with
  | nil => exact h
  | cons e f ih =>
    rw [List.foldl_cons]
    exact ih _ (mergeEntry_downloads_kept acc e fp h)

/-- A batch with an entry whose checksum differs from the indexed one makes `Merge`
return an error. -/
theorem foldl_mergeEntry_conflict (f : eFileFPLists)
    (acc : (eFileFPLists × List eFileFP × Option Error) × LocalStore)
    (h : ∃ e ∈ f, ∃ lfp, acc.2.FPS.lookup e.1 = some lfp ∧ e.2.checksum ≠ lfp.checksum) :
    ∃ x, (f.foldl LocalStore.mergeEntry acc).1.2.2 = some x := by
  induction f generalizing acc with
  | nil =>
    obtain ⟨e, he, _⟩ := h
    cases he
  | cons e0 f ih =>
    obtain ⟨e, he, lfp, hl, hc⟩ := h
    rw [List.foldl_cons]
    rcases List.mem_cons.1 he with h0 | ht
    · subst h0
      obtain ⟨x, hx⟩ := mergeEntry_conflict acc e lfp hl hc
      exact ⟨x, foldl_mergeEntry_error_kept f _ x hx⟩
    · obtain ⟨lfp2, hl2, hc2⟩ := mergeEntry_checksum acc e0 e.1 lfp hl
      exact ih _ ⟨e, ht, lfp2, hl2, by rw [hc2]; exact hc⟩

/-- Every entry of a batch whose name is neither indexed nor tracked has its name
among the downloads that `Merge` returns, whatever else the batch holds. -/
theorem foldl_mergeEntry_unknown (f : eFileFPLists)
    (acc : (eFileFPLists × List eFileFP × Option Error) × LocalStore) (e : String × eFileFP)
    (he : e ∈ f) (hl : acc.2.FPS.lookup e.1 = none) (ht : e.1 ∉ acc.2.tracked) :
    ∃ fp ∈ (f.foldl LocalStore.mergeEntry acc).1.2.1, (e.1, fp) ∈ f := by
  induction f generalizing acc with
  | nil => cases he
  | cons e0 f ih =>
    rw [List.foldl_cons]
    by_cases hn : e.1 = e0.1
    · refine ⟨e0.2, foldl_mergeEntry_downloads_kept f _ e0.2 ?_, ?_⟩
      · obtain ⟨⟨reports, downloads, err⟩, s⟩ := acc
        have hl0 : s.FPS.lookup e0.1 = none := by rw [← hn]; exact hl
        have ht0 : e0.1 ∉ s.tracked := by rw [← hn]; exact ht
        rw [mergeEntry_unknown _ _ _ _ _ hl0]
        simp [ht0]
      · rw [hn]
        exact List.mem_cons_self _ _
    · have he2 : e ∈ f := by
        rcases List.mem_cons.1 he with h0 | h1
        · exact absurd (by rw [h0]) hn
        · exact h1
      obtain ⟨fp, hfp, hmem⟩ := ih (LocalStore.mergeEntry acc e0) he2
        (mergeEntry_lookup_none acc e0 e.1 hl) (mergeEntry_tracked acc e0 e.1 hn ht)
      exact ⟨fp, hfp, List.mem_cons_of_mem _ hmem⟩


/-- The result of `RecvNotify` when `Merge` returns an error, for any collaborators:
the error is returned after the one call to `Merge`. -/
theorem RecvNotify_merge_error {τ : Type} (L : localOps τ) (f : eFileFPLists) (m : module τ)
    (err : Error) (h : (L.Merge m.local_ f).1.2.2 = some err) :
    (m.RecvNotify L f).1 = some err ∧
      (m.RecvNotify L f).2.calls = m.calls ++ [Call.localMerge f] ∧
      (m.RecvNotify L f).2.local_ = (L.Merge m.local_ f).2 := by
  rcases hM : (L.Merge m.local_ f).1 with ⟨reports, downloads, er⟩
  rw [hM] at h
  have h1 : er = some err := h
  subst h1
  simp [module.RecvNotify, module.localMerge, hM]

/-- C9: when `Merge` succeeds on the inbound batch with results `reports` and
`downloads`, `RecvNotify` enqueues one `DoReport` with `reports`, then one
`DoDownload` per element of `downloads`, each once and in order, then calls
`FPWrite` with the items of the index as `Merge` left it, and returns what `FPWrite`
returns; the `FPWrite` call is the last call, after all enqueues. -/
theorem RecvNotify_merge_ok (L : localOps σ) (f : eFileFPLists) (m : module σ)
    (reports : eFileFPLists) (downloads : List eFileFP)
    (h : (L.Merge m.local_ f).1 = (reports, downloads, none)) :
    (m.RecvNotify L f).1
        = (L.FPWrite (L.Merge m.local_ f).2 (L.Items (L.Merge m.local_ f).2)).1 ∧
      (m.RecvNotify L f).2.calls
        = m.calls ++ [Call.localMerge f, Call.asyncDoReport reports]
            ++ downloads.map Call.asyncDoDownload
            ++ [Call.localFPWrite (L.Items (L.Merge m.local_ f).2)] ∧
      (m.RecvNotify L f).2.enqueued
        = m.enqueued ++ Call.asyncDoReport reports :: downloads.map Call.asyncDoDownload ∧
      (m.RecvNotify L f).2.calls.getLast?
        = some (Call.localFPWrite (L.Items (L.Merge m.local_ f).2)) ∧
      (m.RecvNotify L f).2.local_
        = (L.FPWrite (L.Merge m.local_ f).2 (L.Items (L.Merge m.local_ f).2)).2 := by
  have hc : (m.RecvNotify L f).2.calls
      = m.calls ++ [Call.localMerge f, Call.asyncDoReport reports]
          ++ downloads.map Call.asyncDoDownload
          ++ [Call.localFPWrite (L.Items (L.Merge m.local_ f).2)] := by
    simp [module.RecvNotify, module.localMerge, module.localFPWrite, module.asyncDoReport, h,
      foldl_DoDownload_calls, foldl_DoDownload_local]
  refine ⟨?_, hc, ?_, ?_, ?_⟩
  · simp [module.RecvNotify, module.localMerge, module.localFPWrite, module.asyncDoReport, h,
      foldl_DoDownload_local]
  · rw [module.enqueued, hc]
    simp [module.enqueued, List.filter_append, Call.isAsync, filter_isAsync_map_DoDownload]
  · rw [hc]
    exact List.getLast?_concat _
  · simp [module.RecvNotify, module.localMerge, module.localFPWrite, module.asyncDoReport, h,
      foldl_DoDownload_local]

/-- Witness of C9: node `A` holds `k`; a batch with `k` (now also at `B`) and the
unknown `u` merges without error: `k` is re-announced, `u` is queued for download,
and the merged index is written last. -/
theorem RecvNotify_merge_ok_witness :
    (moduleWithK.RecvNotify (LocalStore.ops goodDisk) cleanBatch).1 = none ∧
      (moduleWithK.RecvNotify (LocalStore.ops goodDisk) cleanBatch).2.enqueued
        = [Call.asyncDoReport
            [("k", { name := "k", checksum := 5, size := 1, Hosts := ["A", "B"] })],
           Call.asyncDoDownload { name := "u", checksum := 7, size := 1, Hosts := ["C"] }] ∧
      (moduleWithK.RecvNotify (LocalStore.ops goodDisk) cleanBatch).2.calls.getLast?
        = some (Call.localFPWrite
            [("k", { name := "k", checksum := 5, size := 1, Hosts := ["A", "B"] }),
             ("20240101/a.txt", fpK)]) :=
  ⟨(RecvNotify_merge_ok (LocalStore.ops goodDisk) cleanBatch moduleWithK
      [("k", { name := "k", checksum := 5, size := 1, Hosts := ["A", "B"] })]
      [{ name := "u", checksum := 7, size := 1, Hosts := ["C"] }] rfl).1,
    (RecvNotify_merge_ok (LocalStore.ops goodDisk) cleanBatch moduleWithK
      [("k", { name := "k", checksum := 5, size := 1, Hosts := ["A", "B"] })]
      [{ name := "u", checksum := 7, size := 1, Hosts := ["C"] }] rfl).2.2.1,
    (RecvNotify_merge_ok (LocalStore.ops goodDisk) cleanBatch moduleWithK
      [("k", { name := "k", checksum := 5, size := 1, Hosts := ["A", "B"] })]
      [{ name := "u", checksum := 7, size := 1, Hosts := ["C"] }] rfl).2.2.2.1⟩

/-- C10, as stated, fails: node `A` holds `k` with checksum 5 and receives a batch
with `k` under checksum 6 and the unknown `u`.  `Merge` lists `u` for download and
reports the conflict; `RecvNotify` returns that error after the call to `Merge`
alone: no `DoDownload` for `u` is enqueued, `FPWrite` is not called, and the index
on disk is not the merged one. -/
theorem RecvNotify_conflict_counterexample :
    (LocalStore.Merge moduleWithK.local_ conflictBatch).1.2.1
        = [{ name := "u", checksum := 7, size := 1, Hosts := ["C"] }] ∧
      (moduleWithK.RecvNotify (LocalStore.ops goodDisk) conflictBatch).1
        = some (ConflictError "k") ∧
      (moduleWithK.RecvNotify (LocalStore.ops goodDisk) conflictBatch).2.calls
        = [Call.localMerge conflictBatch] ∧
      Call.asyncDoDownload { name := "u", checksum := 7, size := 1, Hosts := ["C"] }
        ∉ (moduleWithK.RecvNotify (LocalStore.ops goodDisk) conflictBatch).2.calls ∧
      (moduleWithK.RecvNotify (LocalStore.ops goodDisk) conflictBatch).2.enqueued = [] ∧
      (moduleWithK.RecvNotify (LocalStore.ops goodDisk) conflictBatch).2.local_.persisted
        ≠ (moduleWithK.RecvNotify (LocalStore.ops goodDisk) conflictBatch).2.local_.FPS := by
  decide

/-- C10, amended: for a batch with an entry whose checksum differs from the indexed
one, `Merge` returns an error and `RecvNotify` returns that error right after the
call to `Merge`: nothing is enqueued, `FPWrite` is not called and the index on disk
stays as it was.  Inside `Merge` the entries are isolated: every entry of the batch
whose name is neither indexed nor tracked is among the downloads `Merge` returns. -/
theorem RecvNotify_conflict_returns (d : Disk) (f : eFileFPLists) (m : module LocalStore)
    (h : ∃ e ∈ f, ∃ lfp, m.local_.FPS.lookup e.1 = some lfp ∧ e.2.checksum ≠ lfp.checksum) :
    (∃ err, (LocalStore.Merge m.local_ f).1.2.2 = some err ∧
        (m.RecvNotify (LocalStore.ops d) f).1 = some err) ∧
      (m.RecvNotify (LocalStore.ops d) f).2.calls = m.calls ++ [Call.localMerge f] ∧
      (m.RecvNotify (LocalStore.ops d) f).2.enqueued = m.enqueued ∧
      (m.RecvNotify (LocalStore.ops d) f).2.local_ = (LocalStore.Merge m.local_ f).2 ∧
      (m.RecvNotify (LocalStore.ops d) f).2.local_.persisted = m.local_.persisted ∧
      (∀ e ∈ f, m.local_.FPS.lookup e.1 = none → e.1 ∉ m.local_.tracked →
        ∃ fp ∈ (LocalStore.Merge m.local_ f).1.2.1, (e.1, fp) ∈ f) := by
  obtain ⟨x, hx⟩ := foldl_mergeEntry_conflict f (([], [], none), m.local_) h
  have hx2 : ((LocalStore.ops d).Merge m.local_ f).1.2.2 = some x := hx
  have run := RecvNotify_merge_error (LocalStore.ops d) f m x hx2
  refine ⟨⟨x, hx, run.1⟩, run.2.1, ?_, run.2.2, ?_, ?_⟩
  · rw [module.enqueued, run.2.1]
    simp [module.enqueued, List.filter_append, Call.isAsync]
  · rw [run.2.2]
    exact foldl_mergeEntry_persisted f (([], [], none), m.local_)
  · intro e he hl ht
    exact foldl_mergeEntry_unknown f (([], [], none), m.local_) e he hl ht

/-- Witness of C10, amended: the batch with the conflicting `k` and the unknown `u`
on node `A`. -/
theorem RecvNotify_conflict_returns_witness :
    (∃ e ∈ conflictBatch, ∃ lfp, moduleWithK.local_.FPS.lookup e.1 = some lfp ∧
        e.2.checksum ≠ lfp.checksum) ∧
      (moduleWithK.RecvNotify (LocalStore.ops goodDisk) conflictBatch).2.calls
        = moduleWithK.calls ++ [Call.localMerge conflictBatch] ∧
      (moduleWithK.RecvNotify (LocalStore.ops goodDisk) conflictBatch).2.enqueued
        = moduleWithK.enqueued :=
  ⟨⟨("k", { name := "k", checksum := 6, size := 1, Hosts := ["B"] }), by decide, fpK,
      by decide, by decide⟩,
    (RecvNotify_conflict_returns goodDisk conflictBatch moduleWithK
      ⟨("k", { name := "k", checksum := 6, size := 1, Hosts := ["B"] }), by decide, fpK,
        by decide, by decide⟩).2.1,
    (RecvNotify_conflict_returns goodDisk conflictBatch moduleWithK
      ⟨("k", { name := "k", checksum := 6, size := 1, Hosts := ["B"] }), by decide, fpK,
        by decide, by decide⟩).2.2.1⟩

/-! ### `Close` and `Update` -/

/-- Once `once` has fired, a call of `Close` returns nil and changes nothing. -/
theorem Close_after_once (L : localOps σ) (m : module σ) (h : m.once = true) :
    m.Close L = (none, m) := by
  simp [module.Close, h]

/-- Once `once` has fired, any number of calls of `Close` return nil and change
nothing. -/
theorem CloseN_after_once (L : localOps σ) (n : Nat) (m : module σ) (h : m.once = true) :
    module.CloseN L n m = (List.replicate n none, m) := by
  induction n with
  | zero => rfl
  | succ n ih =>
    simp only [module.CloseN, Close_after_once L m h, ih, List.replicate_succ]

/-- C11: on a module whose `once` has not fired, any `n ≥ 1` successive calls of
`Close` all return nil and leave the module as the first call left it: that call
invoked `local.Close` and then `async.Close`, each once and in this order, and set
`once`; every later call finds `once` set, makes no call and changes nothing. -/
theorem Close_idempotent (L : localOps σ) (n : Nat) (m : module σ) (h : m.once = false)
    (hn : 1 ≤ n) :
    (module.CloseN L n m).1 = List.replicate n none ∧
      (module.CloseN L n m).2 = (m.Close L).2 ∧
      (module.CloseN L n m).2.calls = m.calls ++ [Call.localClose, Call.asyncClose] ∧
      (module.CloseN L n m).2.local_ = L.Close m.local_ ∧
      (module.CloseN L n m).2.once = true ∧
      (m.Close L).2.Close L = (none, (m.Close L).2) := by
  obtain ⟨k, rfl⟩ : ∃ k, n = k + 1 := ⟨n - 1, by omega⟩
  have h1 : (m.Close L).2.once = true := by simp [module.Close, h, module.localClose,
    module.asyncClose, module.log]
  have hfirst : (m.Close L).1 = none := by simp [module.Close, h]
  have hrest := CloseN_after_once L k (m.Close L).2 h1
  have hstate : (module.CloseN L (k + 1) m).2 = (m.Close L).2 := by
    simp only [module.CloseN, hrest]
  refine ⟨?_, hstate, ?_, ?_, ?_, Close_after_once L _ h1⟩
  · simp only [module.CloseN, hrest, hfirst, List.replicate_succ]
  · rw [hstate]
    simp [module.Close, h, module.localClose, module.asyncClose]
  · rw [hstate]
    simp [module.Close, h, module.localClose, module.asyncClose, module.log]
  · rw [hstate]
    exact h1

/-- Witness of C11: three calls of `Close` on a fresh module of node `A`. -/
theorem Close_idempotent_witness :
    moduleA.once = false ∧ 1 ≤ 3 ∧
      (module.CloseN (LocalStore.ops goodDisk) 3 moduleA).1 = [none, none, none] ∧
      (module.CloseN (LocalStore.ops goodDisk) 3 moduleA).2.calls
        = moduleA.calls ++ [Call.localClose, Call.asyncClose] :=
  ⟨by decide, by decide,
    (Close_idempotent (LocalStore.ops goodDisk) 3 moduleA (by decide) (by decide)).1,
    (Close_idempotent (LocalStore.ops goodDisk) 3 moduleA (by decide) (by decide)).2.2.1⟩

/-- C12: `Update` passes the four values unchanged to `remoting.Update`, then passes
`currentAddr` to `local.Update`, and then calls `async.DoQuery` exactly when
`isMaster` is true; with `isMaster` false no `DoQuery` is triggered.  Afterwards the
cluster view holds the four values and the LocalStore is the one `local.Update`
returned. -/
theorem Update_calls (L : localOps σ) (hosts : List String) (masterHost currentAddr : String)
    (isMaster : Bool) (m : module σ) :
    (m.Update L hosts masterHost currentAddr isMaster).calls
        = m.calls ++ [Call.remotingUpdate hosts masterHost currentAddr isMaster,
            Call.localUpdate currentAddr] ++ (if isMaster then [Call.asyncDoQuery] else []) ∧
      (m.Update L hosts masterHost currentAddr isMaster).enqueued
        = m.enqueued ++ (if isMaster then [Call.asyncDoQuery] else []) ∧
      (Call.asyncDoQuery ∈ (m.Update L hosts masterHost currentAddr isMaster).enqueued
        ↔ (isMaster = true ∨ Call.asyncDoQuery ∈ m.enqueued)) ∧
      (m.Update L hosts masterHost currentAddr isMaster).remoting
        = { hosts := hosts, masterHost := masterHost, currentAddr := currentAddr,
            isMaster := isMaster } ∧
      (m.Update L hosts masterHost currentAddr isMaster).local_
        = L.Update m.local_ currentAddr ∧
      (m.Update L hosts masterHost currentAddr isMaster).once = m.once := by
  cases isMaster <;>
    simp [module.Update, module.remotingUpdate, module.localUpdate, module.asyncDoQuery,
      module.enqueued, List.filter_append, Call.isAsync, module.log]

/-! ### `getFileName` -/

theorem splitSlash_ne_nil (l : List Char) : splitSlash l ≠ [] := by
  cases l with
  | nil => simp [splitSlash]
  | cons c cs =>
    unfold splitSlash
    split
    · simp
    · split <;> simp

theorem splitSlash_append_slash (t n : List Char) (ht : '/' ∉ t) :
    splitSlash (t ++ '/' :: n) = t :: splitSlash n := by
  induction t with
  | nil => simp [splitSlash]
  | cons c t ih =>
    have hc : c ≠ '/' := fun h => ht (by simp [h])
    have ht2 : '/' ∉ t := fun h => ht (List.mem_cons_of_mem _ h)
    have ih2 := ih ht2
    show splitSlash (c :: (t ++ '/' :: n)) = (c :: t) :: splitSlash n
    rw [splitSlash, if_neg hc, ih2]

theorem joinSlash_cons (t : List Char) (es : List (List Char)) (hes : es ≠ []) :
    joinSlash (t :: es) = t ++ '/' :: joinSlash es := by
  cases es with
  | nil => exact absurd rfl hes
  | cons e es => rfl

theorem joinSlash_splitSlash (l : List Char) : joinSlash (splitSlash l) = l := by
  induction l with
  | nil => rfl
  | cons c cs ih =>
    by_cases hc : c = '/'
    · subst hc
      simp only [splitSlash, if_true]
      rw [joinSlash_cons _ _ (splitSlash_ne_nil cs), ih]
      rfl
    · simp only [splitSlash, hc, if_false]
      cases hs : splitSlash cs with
      | nil => exact absurd hs (splitSlash_ne_nil cs)
      | cons seg segs =>
        rw [hs] at ih
        simp only
        cases segs with
        | nil =>
          simp only [joinSlash] at ih ⊢
          rw [ih]
        | cons s2 segs =>
          simp only [joinSlash] at ih ⊢
          rw [← ih]
          rfl

theorem foldl_cleanElem_kept (segs out : List (List Char))
    (h : ∀ e ∈ segs, e ≠ ['.', '.']) :
    segs.foldl (cleanElem false) out = (segs.filter realElem).reverse ++ out := by
  induction segs generalizing out with
  | nil => rfl
  | cons e segs ih =>
    have he : e ≠ ['.', '.'] := h e (List.mem_cons_self _ _)
    have hrest : ∀ e ∈ segs, e ≠ ['.', '.'] := fun e2 h2 => h e2 (List.mem_cons_of_mem _ h2)
    rw [List.foldl_cons, ih _ hrest]
    by_cases h1 : e = [] ∨ e = ['.']
    · have hr : realElem e = false := by
        rcases h1 with h1 | h1 <;> simp [realElem, h1]
      simp [cleanElem, h1, List.filter_cons, hr]
    · have hr : realElem e = true := by
        have h2 : e ≠ [] := fun h => h1 (Or.inl h)
        have h3 : e ≠ ['.'] := fun h => h1 (Or.inr h)
        simp [realElem, h2, h3, he]
      simp [cleanElem, h1, he, List.filter_cons, hr]

theorem isDate8_facts (today : String) (h : isDate8 today = true) :
    today.data ≠ [] ∧ '/' ∉ today.data ∧ realElem today.data = true ∧
      today.data.head? ≠ some '/' := by
  simp only [isDate8, Bool.and_eq_true, beq_iff_eq, List.all_eq_true] at h
  obtain ⟨hlen, hdig⟩ := h
  have hne : today.data ≠ [] := by
    intro h0
    rw [h0] at hlen
    cases hlen
  have hslash : '/' ∉ today.data := by
    intro hmem
    have := hdig _ hmem
    revert this
    decide
  refine ⟨hne, hslash, ?_, ?_⟩
  · have h1 : today.data ≠ ['.'] := by
      intro h0
      rw [h0] at hlen
      cases hlen
    have h2 : today.data ≠ ['.', '.'] := by
      intro h0
      rw [h0] at hlen
      cases hlen
    simp [realElem, hne, h1, h2]
  · intro hh
    cases hd : today.data with
    | nil => exact hne hd
    | cons c cs =>
      rw [hd] at hh hslash
      simp only [List.head?_cons, Option.some.injEq] at hh
      exact hslash (by simp [hh])

/-- What `filepath.Join(today, name)` computes when `today` is a date and no element
of `name` is `..`: the date followed by the elements of `name` that are neither
empty nor `.`, joined by single separators. -/
theorem Join_date_kept (t n : List Char) (ht0 : t ≠ []) (hts : '/' ∉ t)
    (htr : realElem t = true) (hth : t.head? ≠ some '/')
    (hn : ∀ e ∈ splitSlash n, e ≠ ['.', '.']) :
    Join [t, n] = joinSlash (t :: (splitSlash n).filter realElem) := by
  have hpath : t ++ '/' :: n ≠ [] := by
    cases t with
    | nil => exact absurd rfl ht0
    | cons c cs => simp
  have hhead : (t ++ '/' :: n).head? = t.head? := by
    cases t with
    | nil => exact absurd rfl ht0
    | cons c cs => rfl
  have hne : t ≠ ['.', '.'] := by
    intro h
    rw [h] at htr
    revert htr
    decide
  have hsegs : ∀ e ∈ t :: splitSlash n, e ≠ ['.', '.'] := by
    intro e he
    rcases List.mem_cons.1 he with h | h
    · rw [h]
      exact hne
    · exact hn e h
  have hbody : joinSlash (t :: (splitSlash n).filter realElem) ≠ [] := by
    cases hf : (splitSlash n).filter realElem with
    | nil => simpa [joinSlash] using ht0
    | cons e es =>
      rw [joinSlash_cons _ _ (by simp)]
      cases t with
      | nil => exact absurd rfl ht0
      | cons c cs => simp
  have hdrop : [t, n].dropWhile (fun e => decide (e = [])) = [t, n] := by
    simp [List.dropWhile, ht0]
  unfold Join
  rw [hdrop]
  simp only [joinSlash]
  unfold Clean
  rw [if_neg hpath]
  simp only [hhead, hth, decide_False, Bool.false_eq_true, if_false,
    splitSlash_append_slash t n hts, foldl_cleanElem_kept _ [] hsegs, List.append_nil,
    List.reverse_reverse, List.filter_cons, htr, if_true]
  rw [if_neg hbody]


/-- The calls that `SaveNewFile` makes: the existence check and, when it is made, the
`SaveFile` call both carry the name `getFileName today name`. -/
theorem SaveNewFile_names (L : localOps σ) (today name : String) (buff : Bytes)
    (m : module σ) :
    ∃ rest, (m.SaveNewFile L today name buff).2.calls
        = m.calls ++ Call.localHas (getFileName today name) :: rest ∧
      ∀ c ∈ rest, c = Call.localSaveFile (getFileName today name) buff [] ∨
        ∃ f, c = Call.asyncDoReport f := by
  cases hh : L.Has m.local_ (getFileName today name) with
  | true =>
    refine ⟨[], ?_, ?_⟩
    · simp [module.SaveNewFile, module.localHas, hh]
    · intro c hc
      cases hc
  | false =>
    cases hs : (L.SaveFile m.local_ (getFileName today name) buff []).1 with
    | error err =>
      refine ⟨[Call.localSaveFile (getFileName today name) buff []], ?_, ?_⟩
      · simp [module.SaveNewFile, module.localHas, module.localSaveFile, hh, hs]
      · intro c hc
        simp only [List.mem_singleton] at hc
        exact Or.inl hc
    | ok fp =>
      refine ⟨[Call.localSaveFile (getFileName today name) buff [],
        Call.asyncDoReport fp.GetMAP], ?_, ?_⟩
      · simp [module.SaveNewFile, module.localHas, module.localSaveFile,
          module.asyncDoReport, hh, hs]
      · intro c hc
        simp only [List.mem_cons, List.mem_singleton, List.not_mem_nil, or_false] at hc
        rcases hc with hc | hc
        · exact Or.inl hc
        · exact Or.inr ⟨_, hc⟩

/-- C13, as stated, fails: on 2024-01-01 the name `../x` is checked and saved as
`x`, outside the date partition, and the name `a//b` is stored as `20240101/a/b`,
which does not end with the original name. -/
theorem getFileName_counterexample :
    getFileName "20240101" "../x" = "x" ∧
      (moduleA.SaveNewFile (LocalStore.ops goodDisk) "20240101" "../x" [1]).2.calls
        = [Call.localHas "x", Call.localSaveFile "x" [1] [],
            Call.asyncDoReport
              [("x", { name := "x", checksum := getCRC64 [1], size := 1, Hosts := ["A"] })]] ∧
      getFileName "20240101" "a//b" = "20240101/a/b" ∧
      getFileName "20240101" "" = "20240101" := by
  decide

/-- C13, amended: the existence check and `SaveFile` of `SaveNewFile` are performed
under `getFileName today name`.  When `today` is an 8-digit date and no element of
the original name is `..`, that name is the date followed by the elements of the
original name that are neither empty nor `.`, joined by single separators; when
moreover every element of the original name is non-empty and not `.`, it is exactly
`YYYYMMDD/<original-name>`. -/
theorem getFileName_partition (today name : String) (hd : isDate8 today = true)
    (hn : ∀ e ∈ splitSlash name.data, e ≠ ['.', '.']) :
    getFileName today name
        = String.mk (joinSlash (today.data :: (splitSlash name.data).filter realElem)) ∧
      ((∀ e ∈ splitSlash name.data, realElem e = true) →
        getFileName today name = today ++ "/" ++ name) ∧
      (∀ (τ : Type) (L : localOps τ) (buff : Bytes) (m : module τ),
        ∃ rest, (m.SaveNewFile L today name buff).2.calls
            = m.calls ++ Call.localHas (getFileName today name) :: rest ∧
          ∀ c ∈ rest, c = Call.localSaveFile (getFileName today name) buff [] ∨
            ∃ f, c = Call.asyncDoReport f) := by
  obtain ⟨h0, hs, hr, hh⟩ := isDate8_facts today hd
  have hjoin := Join_date_kept today.data name.data h0 hs hr hh hn
  refine ⟨?_, ?_, ?_⟩
  · simp only [getFileName, hjoin]
  · intro hreal
    have hfilter : (splitSlash name.data).filter realElem = splitSlash name.data :=
      List.filter_eq_self.2 hreal
    simp only [getFileName, hjoin, hfilter]
    rw [joinSlash_cons _ _ (splitSlash_ne_nil _), joinSlash_splitSlash]
    apply String.ext
    simp [String.data_append]
  · intro τ L buff m
    exact SaveNewFile_names L today name buff m

/-- Witness of C13, amended: on 2024-01-01, `a.txt` is stored as `20240101/a.txt` and
`docs/./a.txt` as `20240101/docs/a.txt`. -/
theorem getFileName_partition_witness :
    isDate8 "20240101" = true ∧
      getFileName "20240101" "a.txt" = "20240101" ++ "/" ++ "a.txt" ∧
      getFileName "20240101" "docs/./a.txt"
        = String.mk (joinSlash ("20240101".data ::
            (splitSlash "docs/./a.txt".data).filter realElem)) :=
  ⟨by decide,
    (getFileName_partition "20240101" "a.txt" (by decide) (by decide)).2.1 (by decide),
    (getFileName_partition "20240101" "docs/./a.txt" (by decide) (by decide)).1⟩

/-! ### Idempotence of `Merge` -/

theorem unionHosts_self (a b : List String) (h : ∀ x ∈ b, x ∈ a) : unionHosts a b = a := by
  unfold unionHosts
  induction b with
  | nil => rfl
  | cons x b ih =>
    have hx : x ∈ a := h x (List.mem_cons_self _ _)
    rw [List.foldl_cons, if_pos hx]
    exact ih (fun y hy => h y (List.mem_cons_of_mem _ hy))

/-- One step of `Merge` keeps every indexed name indexed, with at least its hosts. -/
theorem mergeEntry_hosts_grow
    (acc : (eFileFPLists × List eFileFP × Option Error) × LocalStore) (e : String × eFileFP)
    (n : String) (lfp : eFileFP) (h : acc.2.FPS.lookup n = some lfp) :
    ∃ lfp2, (LocalStore.mergeEntry acc e).2.FPS.lookup n = some lfp2 ∧
      ∀ x ∈ lfp.Hosts, x ∈ lfp2.Hosts := by
  obtain ⟨⟨reports, downloads, err⟩, s⟩ := acc
  have h1 : s.FPS.lookup n = some lfp := h
  cases hl : s.FPS.lookup e.1 with
  | none =>
    rw [mergeEntry_unknown _ _ _ _ _ hl]
    split <;> exact ⟨lfp, h1, fun x hx => hx⟩
  | some l1 =>
    rw [mergeEntry_known _ _ _ _ _ _ hl]
    split
    · exact ⟨lfp, h1, fun x hx => hx⟩
    · by_cases hn : n = e.1
      · subst hn
        have hEq : l1 = lfp := by
          rw [hl] at h1
          exact Option.some.inj h1
        refine ⟨_, lookup_indexSet_self _ _ _, ?_⟩
        intro x hx
        rw [← hEq] at hx
        exact (mem_unionHosts x _ _).2 (Or.inl hx)
      · refine ⟨lfp, ?_, fun x hx => hx⟩
        show (indexSet e.1 _ s.FPS).lookup n = some lfp
        rw [lookup_indexSet_ne n e.1 _ _ hn]
        exact h1

/-- One step of `Merge` keeps every tracked name tracked. -/
theorem mergeEntry_tracked_grow
    (acc : (eFileFPLists × List eFileFP × Option Error) × LocalStore) (e : String × eFileFP)
    (n : String) (h : n ∈ acc.2.tracked) : n ∈ (LocalStore.mergeEntry acc e).2.tracked := by
  obtain ⟨⟨reports, downloads, err⟩, s⟩ := acc
  have h1 : n ∈ s.tracked := h
  cases hl : s.FPS.lookup e.1 with
  | none =>
    rw [mergeEntry_unknown _ _ _ _ _ hl]
    split
    · exact h1
    · exact List.mem_append_left _ h1
  | some l1 =>
    rw [mergeEntry_known _ _ _ _ _ _ hl]
    split <;> exact h1

/-- An entry that the store accounts for is still accounted for after a step of
`Merge`. -/
theorem mergeEntry_covers_kept
    (acc : (eFileFPLists × List eFileFP × Option Error) × LocalStore) (e0 e : String × eFileFP)
    (h : acc.2.covers e) : (LocalStore.mergeEntry acc e0).2.covers e := by
  unfold LocalStore.covers at h ⊢
  cases hl : acc.2.FPS.lookup e.1 with
  | none =>
    rw [hl] at h
    rw [mergeEntry_lookup_none acc e0 e.1 hl]
    exact mergeEntry_tracked_grow acc e0 e.1 h
  | some lfp =>
    rw [hl] at h
    obtain ⟨lfp2, h2, hsub⟩ := mergeEntry_hosts_grow acc e0 e.1 lfp hl
    rw [h2]
    exact fun x hx => hsub x (h x hx)

/-- After the step of `Merge` on an entry, the store accounts for that entry. -/
theorem mergeEntry_covers_self
    (acc : (eFileFPLists × List eFileFP × Option Error) × LocalStore) (e : String × eFileFP) :
    (LocalStore.mergeEntry acc e).2.covers e := by
  obtain ⟨⟨reports, downloads, err⟩, s⟩ := acc
  cases hl : s.FPS.lookup e.1 with
  | none =>
    rw [mergeEntry_unknown _ _ _ _ _ hl]
    by_cases ht : e.1 ∈ s.tracked
    · rw [if_pos ht]
      unfold LocalStore.covers
      simp only [hl]
      exact ht
    · rw [if_neg ht]
      unfold LocalStore.covers
      simp only [hl]
      simp
  | some l1 =>
    rw [mergeEntry_known _ _ _ _ _ _ hl]
    by_cases hu : unionHosts l1.Hosts e.2.Hosts = l1.Hosts
    · rw [if_pos hu]
      unfold LocalStore.covers
      simp only [hl]
      intro x hx
      rw [← hu]
      exact (mem_unionHosts x _ _).2 (Or.inr hx)
    · rw [if_neg hu]
      unfold LocalStore.covers
      simp only [lookup_indexSet_self]
      intro x hx
      exact (mem_unionHosts x _ _).2 (Or.inr hx)

theorem foldl_mergeEntry_covers_kept (f : eFileFPLists)
    (acc : (eFileFPLists × List eFileFP × Option Error) × LocalStore) (e : String × eFileFP)
    (h : acc.2.covers e) : (f.foldl LocalStore.mergeEntry acc).2.covers e := by
  induction f generalizing acc with
  | nil => exact h
  | cons e0 f ih =>
    rw [List.foldl_cons]
    exact ih _ (mergeEntry_covers_kept acc e0 e h)

/-- After `Merge`, the store accounts for every entry of the batch. -/
theorem foldl_mergeEntry_covers (f : eFileFPLists)
    (acc : (eFileFPLists × List eFileFP × Option Error) × LocalStore) :
    ∀ e ∈ f, (f.foldl LocalStore.mergeEntry acc).2.covers e := by
  induction f generalizing acc with
  | nil =>
    intro e he
    cases he
  | cons e0 f ih =>
    intro e he
    rw [List.foldl_cons]
    rcases List.mem_cons.1 he with h0 | ht
    · rw [h0]
      exact foldl_mergeEntry_covers_kept f _ e0 (mergeEntry_covers_self acc e0)
    · exact ih _ e ht

/-- A step of `Merge` on an entry the store accounts for changes neither the store
nor the reports nor the downloads. -/
theorem mergeEntry_covered (reports : eFileFPLists) (downloads : List eFileFP)
    (err : Option Error) (s : LocalStore) (e : String × eFileFP) (h : s.covers e) :
    ∃ err2, LocalStore.mergeEntry ((reports, downloads, err), s) e
      = ((reports, downloads, err2), s) := by
  unfold LocalStore.covers at h
  cases hl : s.FPS.lookup e.1 with
  | none =>
    rw [hl] at h
    rw [mergeEntry_unknown _ _ _ _ _ hl, if_pos h]
    exact ⟨err, rfl⟩
  | some lfp =>
    rw [hl] at h
    rw [mergeEntry_known _ _ _ _ _ _ hl, if_pos (unionHosts_self _ _ h)]
    exact ⟨_, rfl⟩

/-- `Merge` of a batch whose entries the store all accounts for changes neither the
store nor the reports nor the downloads. -/
theorem foldl_mergeEntry_covered (f : eFileFPLists) (reports : eFileFPLists)
    (downloads : List eFileFP) (err : Option Error) (s : LocalStore)
    (h : ∀ e ∈ f, s.covers e) :
    ∃ err2, f.foldl LocalStore.mergeEntry ((reports, downloads, err), s)
      = ((reports, downloads, err2), s) := by
  induction f generalizing err with
  | nil => exact ⟨err, rfl⟩
  | cons e0 f ih =>
    obtain ⟨err1, h1⟩ := mergeEntry_covered reports downloads err s e0
      (h e0 (List.mem_cons_self _ _))
    rw [List.foldl_cons, h1]
    exact ih err1 (fun e he => h e (List.mem_cons_of_mem _ he))

/-- Whether the store accounts for an entry depends on the index and the tracked
names only. -/
theorem covers_congr (s t : LocalStore) (e : String × eFileFP) (h1 : t.FPS = s.FPS)
    (h2 : t.tracked = s.tracked) (h : s.covers e) : t.covers e := by
  unfold LocalStore.covers at h ⊢
  rw [h1, h2]
  exact h

/-- The LocalStore after `RecvNotify` when `Merge` returns no error, for any
collaborators: the one `FPWrite` left. -/
theorem RecvNotify_ok_state {τ : Type} (L : localOps τ) (f : eFileFPLists) (m : module τ)
    (reports : eFileFPLists) (downloads : List eFileFP)
    (h : (L.Merge m.local_ f).1 = (reports, downloads, none)) :
    (m.RecvNotify L f).2.local_
      = (L.FPWrite (L.Merge m.local_ f).2 (L.Items (L.Merge m.local_ f).2)).2 := by
  simp [module.RecvNotify, module.localMerge, module.localFPWrite, module.asyncDoReport, h,
    foldl_DoDownload_local]

/-- The call log after `RecvNotify` when `Merge` returns no error, for any
collaborators. -/
theorem RecvNotify_ok_log {τ : Type} (L : localOps τ) (f : eFileFPLists) (m : module τ)
    (reports : eFileFPLists) (downloads : List eFileFP)
    (h : (L.Merge m.local_ f).1 = (reports, downloads, none)) :
    (m.RecvNotify L f).2.calls
      = m.calls ++ [Call.localMerge f, Call.asyncDoReport reports]
          ++ downloads.map Call.asyncDoDownload
          ++ [Call.localFPWrite (L.Items (L.Merge m.local_ f).2)] := by
  simp [module.RecvNotify, module.localMerge, module.localFPWrite, module.asyncDoReport, h,
    foldl_DoDownload_calls, foldl_DoDownload_local]

/-- After `RecvNotify`, the LocalStore accounts for every entry of the batch. -/
theorem RecvNotify_covers (d : Disk) (f : eFileFPLists) (m : module LocalStore) :
    ∀ e ∈ f, (m.RecvNotify (LocalStore.ops d) f).2.local_.covers e := by
  intro e he
  have hc : (LocalStore.Merge m.local_ f).2.covers e :=
    foldl_mergeEntry_covers f (([], [], none), m.local_) e he
  rcases hM : ((LocalStore.ops d).Merge m.local_ f).1 with ⟨reports, downloads, er⟩
  cases er with
  | some err =>
    have hx : ((LocalStore.ops d).Merge m.local_ f).1.2.2 = some err := by rw [hM]
    rw [(RecvNotify_merge_error (LocalStore.ops d) f m err hx).2.2]
    exact hc
  | none =>
    have run := RecvNotify_ok_state (LocalStore.ops d) f m reports downloads hM
    rw [run]
    refine covers_congr _ _ e ?_ ?_ hc
    · show (LocalStore.FPWrite d _ _).2.FPS = _
      unfold LocalStore.FPWrite
      split <;> rfl
    · show (LocalStore.FPWrite d _ _).2.tracked = _
      unfold LocalStore.FPWrite
      split <;> rfl

/-- C14: `Merge` is idempotent.  Merging a batch a second time right after the first
leaves the LocalStore (index and tracked names) as the first merge left it and
returns neither reports nor downloads.  Consequently a second `RecvNotify` with the
same batch enqueues no download: it either returns the error of `Merge` after that
call alone, or enqueues the empty report and writes the index. -/
theorem Merge_idempotent (d : Disk) (f : eFileFPLists) (s : LocalStore)
    (m : module LocalStore) :
    (LocalStore.Merge (LocalStore.Merge s f).2 f).2 = (LocalStore.Merge s f).2 ∧
      (LocalStore.Merge (LocalStore.Merge s f).2 f).1.1 = [] ∧
      (LocalStore.Merge (LocalStore.Merge s f).2 f).1.2.1 = [] ∧
      (((m.RecvNotify (LocalStore.ops d) f).2.RecvNotify (LocalStore.ops d) f).2.calls
          = (m.RecvNotify (LocalStore.ops d) f).2.calls ++ [Call.localMerge f] ∨
        ((m.RecvNotify (LocalStore.ops d) f).2.RecvNotify (LocalStore.ops d) f).2.calls
          = (m.RecvNotify (LocalStore.ops d) f).2.calls ++
              [Call.localMerge f, Call.asyncDoReport [],
               Call.localFPWrite (m.RecvNotify (LocalStore.ops d) f).2.local_.FPS]) ∧
      (∀ fp, Call.asyncDoDownload fp
          ∈ ((m.RecvNotify (LocalStore.ops d) f).2.RecvNotify (LocalStore.ops d) f).2.calls →
        Call.asyncDoDownload fp ∈ (m.RecvNotify (LocalStore.ops d) f).2.calls) := by
  obtain ⟨err2, h2⟩ := foldl_mergeEntry_covered f [] [] none (LocalStore.Merge s f).2
    (foldl_mergeEntry_covers f (([], [], none), s))
  have hM : LocalStore.Merge (LocalStore.Merge s f).2 f
      = (([], [], err2), (LocalStore.Merge s f).2) := h2
  obtain ⟨err3, h3⟩ := foldl_mergeEntry_covered f [] [] none
    (m.RecvNotify (LocalStore.ops d) f).2.local_ (RecvNotify_covers d f m)
  have hM3 : (LocalStore.ops d).Merge (m.RecvNotify (LocalStore.ops d) f).2.local_ f
      = (([], [], err3), (m.RecvNotify (LocalStore.ops d) f).2.local_) := h3
  have hshape :
      ((m.RecvNotify (LocalStore.ops d) f).2.RecvNotify (LocalStore.ops d) f).2.calls
          = (m.RecvNotify (LocalStore.ops d) f).2.calls ++ [Call.localMerge f] ∨
        ((m.RecvNotify (LocalStore.ops d) f).2.RecvNotify (LocalStore.ops d) f).2.calls
          = (m.RecvNotify (LocalStore.ops d) f).2.calls ++
              [Call.localMerge f, Call.asyncDoReport [],
               Call.localFPWrite (m.RecvNotify (LocalStore.ops d) f).2.local_.FPS] := by
    cases err3 with
    | some e3 =>
      left
      exact (RecvNotify_merge_error (LocalStore.ops d) f _ e3 (by rw [hM3])).2.1
    | none =>
      right
      have hc := RecvNotify_ok_log (LocalStore.ops d) f
        (m.RecvNotify (LocalStore.ops d) f).2 [] [] (by rw [hM3])
      rw [hc, hM3]
      simp [LocalStore.ops, LocalStore.GetFPs]
  refine ⟨by rw [hM], by rw [hM], by rw [hM], hshape, ?_⟩
  intro fp hfp
  rcases hshape with h | h
  · rw [h] at hfp
    simpa using hfp
  · rw [h] at hfp
    simpa using hfp

end nfs

namespace uuid

/-! ### `UUID.Get` -/

theorem numberMax_eq : numberMax = 4095 := by decide

theorem toInt64_toUint64 (x : Int) (h0 : 0 ≤ x) (h1 : x < 2 ^ 63) :
    toInt64 (toUint64 x) = x := by
  have hmod : x % 2 ^ 64 = x := Int.emod_eq_of_lt h0 (by omega)
  have hnat : ((x.toNat : Nat) : Int) = x := Int.toNat_of_nonneg h0
  have hlt : x.toNat < 2 ^ 63 := by omega
  have hmod2 : x.toNat % 2 ^ 64 = x.toNat := Nat.mod_eq_of_lt (by omega)
  unfold toInt64 toUint64
  rw [hmod, hmod2, if_pos hlt, hnat]

/-- A call of `Get` in the millisecond of the last reset, below the maximum sequence
number: the number is incremented and the clock is read once. -/
theorem Get_same_ms (w : UUID) (t : Int) (clock : List Int) (ht : w.timestamp = t)
    (h0 : 0 ≤ w.number) (h1 : w.number < 4095) :
    w.Get (t :: clock)
      = some (({ w with number := w.number + 1 } : UUID).makeID t,
          { w with number := w.number + 1 }, clock) := by
  have hadd : add64 w.number 1 = w.number + 1 :=
    toInt64_toUint64 _ (by omega) (by omega)
  have hle : ¬ (w.number + 1 > numberMax) := by
    rw [numberMax_eq]
    omega
  simp only [UUID.Get, ht, if_true, hadd, hle, if_false]

/-- Any number of calls of `Get` within one millisecond that stay below the maximum
sequence number: each increments the number. -/
theorem GetN_same_ms (j : Nat) (w : UUID) (t : Int) (clock : List Int)
    (ht : w.timestamp = t) (h0 : 0 ≤ w.number) (h1 : w.number + j ≤ 4095) :
    ∃ ids, ids.length = j ∧
      UUID.GetN j w (List.replicate j t ++ clock)
        = some (ids, { w with number := w.number + j }, clock) := by
  induction j generalizing w with
  | zero => exact ⟨[], rfl, by simp [UUID.GetN]⟩
  | succ j ih =>
    have hstep := Get_same_ms w t (List.replicate j t ++ clock) ht h0 (by omega)
    obtain ⟨ids, hlen, hrun⟩ := ih { w with number := w.number + 1 } ht
      (by show 0 ≤ w.number + 1; omega)
      (by show w.number + 1 + (j : Int) ≤ 4095; push_cast at h1; omega)
    refine ⟨({ w with number := w.number + 1 } : UUID).makeID t :: ids, by simp [hlen], ?_⟩
    have hclock : List.replicate (j + 1) t ++ clock = t :: (List.replicate j t ++ clock) := rfl
    rw [hclock, UUID.GetN, hstep]
    simp only [hrun]
    have hn : w.number + 1 + (j : Int) = w.number + ((j + 1 : Nat) : Int) := by
      push_cast
      omega
    simp only [hn]

theorem GetN_add (a b : Nat) (w w1 w2 : UUID) (c c1 c2 : List Int) (ids1 ids2 : List Int)
    (h1 : UUID.GetN a w c = some (ids1, w1, c1))
    (h2 : UUID.GetN b w1 c1 = some (ids2, w2, c2)) :
    UUID.GetN (a + b) w c = some (ids1 ++ ids2, w2, c2) := by
  induction a generalizing w c ids1 with
  | zero =>
    simp only [UUID.GetN, Option.some.injEq, Prod.mk.injEq] at h1
    obtain ⟨hi, hw, hc⟩ := h1
    subst hi hw hc
    simpa using h2
  | succ a ih =>
    have hab : a + 1 + b = (a + b) + 1 := by omega
    rw [hab, UUID.GetN]
    rw [UUID.GetN] at h1
    cases hg : w.Get c with
    | none => simp [hg] at h1
    | some r =>
      obtain ⟨id, w0, c0⟩ := r
      simp only [hg] at h1 ⊢
      cases hr : UUID.GetN a w0 c0 with
      | none => simp [hr] at h1
      | some r2 =>
        obtain ⟨ids0, w3, c3⟩ := r2
        simp only [hr, Option.some.injEq, Prod.mk.injEq] at h1
        obtain ⟨hi, hw, hc⟩ := h1
        subst hi hw hc
        rw [ih w0 c0 ids0 hr]
        rfl

/-- A call of `Get` in another millisecond than the last reset: the number is reset
and the millisecond recorded. -/
theorem Get_new_ms (w : UUID) (now : Int) (clock : List Int) (ht : w.timestamp ≠ now) :
    w.Get (now :: clock)
      = some (({ w with number := 0, timestamp := now } : UUID).makeID now,
          { w with number := 0, timestamp := now }, clock) := by
  simp only [UUID.Get, ht, if_false]

theorem GetN_one (w w1 : UUID) (c c1 : List Int) (id : Int)
    (h : w.Get c = some (id, w1, c1)) : UUID.GetN 1 w c = some ([id], w1, c1) := by
  simp only [UUID.GetN, h]

theorem replicate_split (k : Nat) (t : Int) (rest : List Int) :
    List.replicate (k + 2) t ++ rest = t :: (List.replicate k t ++ (t :: rest)) := by
  induction k with
  | zero => rfl
  | succ k ih =>
    have h : List.replicate (k + 1 + 2) t ++ rest
        = t :: (List.replicate (k + 2) t ++ rest) := rfl
    rw [h, ih]
    rfl

/-- C15 fails on the code: worker 1 is asked for 4098 IDs while the clock reads the
epoch millisecond 4097 times and then the next millisecond.  The 4097th call finds
the sequence number above `numberMax`, waits for the next millisecond and builds its
ID from that millisecond and the number 4096, without resetting the number or
recording the millisecond; bit 12 of the number falls on bit 0 of the worker ID,
which is already set.  The 4098th call, in that same millisecond, resets the number
to 0 and returns the same ID, 4198400. -/
theorem Get_duplicate_after_overflow :
    worker1.workerID = 1 ∧
      ∃ ids w, ids.length = 4096 ∧
        UUID.GetN 4098 worker1 (List.replicate 4097 epoch ++ [epoch + 1, epoch + 1])
          = some (ids ++ [4198400, 4198400], w, []) := by
  refine ⟨by decide, ?_⟩
  have hclock : List.replicate 4097 epoch ++ [epoch + 1, epoch + 1]
      = epoch :: (List.replicate 4095 epoch ++ [epoch, epoch + 1, epoch + 1]) :=
    replicate_split 4095 epoch [epoch + 1, epoch + 1]
  have hne : worker1.timestamp ≠ epoch := by decide
  have h1 := GetN_one _ _ _ _ _
    (Get_new_ms worker1 epoch (List.replicate 4095 epoch ++ [epoch, epoch + 1, epoch + 1]) hne)
  obtain ⟨ids, hlen, h2⟩ := GetN_same_ms 4095
    ({ worker1 with number := 0, timestamp := epoch } : UUID) epoch
    [epoch, epoch + 1, epoch + 1] rfl (by decide) (by decide)
  have h3 : UUID.GetN 2
      ({ ({ worker1 with number := 0, timestamp := epoch } : UUID) with
          number := ({ worker1 with number := 0, timestamp := epoch } : UUID).number
            + ((4095 : Nat) : Int) })
      [epoch, epoch + 1, epoch + 1]
      = some ([4198400, 4198400],
          { worker1 with number := 0, timestamp := epoch + 1 }, []) := by
    decide
  have h12 := GetN_add 1 4095 _ _ _ _ _ _ _ _ h1 h2
  have h123 := GetN_add (1 + 4095) 2 _ _ _ _ _ _ _ _ h12 h3
  refine ⟨({ worker1 with number := 0, timestamp := epoch } : UUID).makeID epoch :: ids,
    { worker1 with number := 0, timestamp := epoch + 1 }, by simp [hlen], ?_⟩
  rw [hclock]
  exact h123


/-! ### The sequence number and the layout of an ID -/

/-- C22 fails on the code: worker 0 is asked for 4097 IDs while the clock reads the
epoch millisecond 4097 times and then the next millisecond.  The 4097th call
increments the number to 4096, above `numberMax` = 4095, waits for the next
millisecond and returns without resetting the number: the worker is left with number
4096, and the ID returned, 4198400, carries 1 in its worker-ID bits (the worker ID is
0) and 0 in its sequence bits. -/
theorem Get_number_above_max :
    worker0.workerID = 0 ∧ numberMax = 4095 ∧
      ∃ ids w, ids.length = 4096 ∧
        UUID.GetN 4097 worker0 (List.replicate 4097 epoch ++ [epoch + 1])
          = some (ids ++ [4198400], w, []) ∧
        w.number = 4096 ∧ shr64 4198400 12 % 1024 = 1 ∧ (4198400 : Int) % 4096 = 0 := by
  refine ⟨by decide, by decide, ?_⟩
  have hclock : List.replicate 4097 epoch ++ [epoch + 1]
      = epoch :: (List.replicate 4095 epoch ++ [epoch, epoch + 1]) :=
    replicate_split 4095 epoch [epoch + 1]
  have hne : worker0.timestamp ≠ epoch := by decide
  have h1 := GetN_one _ _ _ _ _
    (Get_new_ms worker0 epoch (List.replicate 4095 epoch ++ [epoch, epoch + 1]) hne)
  obtain ⟨ids, hlen, h2⟩ := GetN_same_ms 4095
    ({ worker0 with number := 0, timestamp := epoch } : UUID) epoch
    [epoch, epoch + 1] rfl (by decide) (by decide)
  have h3 : UUID.GetN 1
      ({ ({ worker0 with number := 0, timestamp := epoch } : UUID) with
          number := ({ worker0 with number := 0, timestamp := epoch } : UUID).number
            + ((4095 : Nat) : Int) })
      [epoch, epoch + 1]
      = some ([4198400], { worker0 with number := 4096, timestamp := epoch }, []) := by
    decide
  have h12 := GetN_add 1 4095 _ _ _ _ _ _ _ _ h1 h2
  have h123 := GetN_add (1 + 4095) 1 _ _ _ _ _ _ _ _ h12 h3
  refine ⟨({ worker0 with number := 0, timestamp := epoch } : UUID).makeID epoch :: ids,
    { worker0 with number := 4096, timestamp := epoch }, by simp [hlen], ?_, rfl, by decide,
    by decide⟩
  rw [hclock]
  exact h123

theorem toUint64_natCast (n : Nat) (h : n < 2 ^ 64) : toUint64 (n : Int) = n := by
  unfold toUint64
  have h1 : ((n : Int) % 2 ^ 64) = (n : Int) := Int.emod_eq_of_lt (by omega) (by omega)
  rw [h1]
  exact Int.toNat_ofNat n

theorem toInt64_natCast (n : Nat) (h : n < 2 ^ 63) : toInt64 n = (n : Int) := by
  unfold toInt64
  have h1 : n % 2 ^ 64 = n := Nat.mod_eq_of_lt (by omega)
  rw [h1, if_pos h]

theorem or64_natCast (a b : Nat) (ha : a < 2 ^ 63) (hb : b < 2 ^ 63) (hab : a ||| b < 2 ^ 63) :
    or64 (a : Int) (b : Int) = ((a ||| b : Nat) : Int) := by
  unfold or64
  rw [toUint64_natCast a (by omega), toUint64_natCast b (by omega), toInt64_natCast _ hab]

/-- The ID expression on fields within their ranges: the bit fields do not overlap, so
the two `|` add up and nothing wraps. -/
theorem makeID_eq_sum (w : UUID) (now : Int) (hd0 : 0 ≤ now - epoch)
    (hd1 : now - epoch < 2 ^ 41) (hw0 : 0 ≤ w.workerID) (hw1 : w.workerID ≤ 1023)
    (hn0 : 0 ≤ w.number) (hn1 : w.number ≤ 4095) :
    w.makeID now = (now - epoch) * 2 ^ 22 + w.workerID * 2 ^ 12 + w.number := by
  obtain ⟨D, hD⟩ := Int.eq_ofNat_of_zero_le hd0
  obtain ⟨W, hW⟩ := Int.eq_ofNat_of_zero_le hw0
  obtain ⟨N, hN⟩ := Int.eq_ofNat_of_zero_le hn0
  have hDlt : D < 2 ^ 41 := by omega
  have hWlt : W < 2 ^ 10 := by omega
  have hNlt : N < 2 ^ 12 := by omega
  have hsub : sub64 now epoch = (D : Int) := by
    unfold sub64
    rw [hD, toUint64_natCast D (by omega), toInt64_natCast D (by omega)]
  have hshD : shl64 (D : Int) timeShift = ((2 ^ 22 * D : Nat) : Int) := by
    unfold shl64
    rw [toUint64_natCast D (by omega), Nat.shiftLeft_eq, Nat.mul_comm]
    exact toInt64_natCast _ (by
      have : 2 ^ 22 * D < 2 ^ 22 * 2 ^ 41 := Nat.mul_lt_mul_of_pos_left hDlt (by decide)
      simp only [timeShift, workerBits, numberBits] at *
      omega)
  have hshW : shl64 (W : Int) workerShift = ((2 ^ 12 * W : Nat) : Int) := by
    unfold shl64
    rw [toUint64_natCast W (by omega), Nat.shiftLeft_eq, Nat.mul_comm]
    exact toInt64_natCast _ (by
      simp only [workerShift, numberBits] at *
      omega)
  have hWW : 2 ^ 12 * W < 2 ^ 22 := by omega
  have hor1 : 2 ^ 22 * D ||| 2 ^ 12 * W = 2 ^ 22 * D + 2 ^ 12 * W :=
    (Nat.mul_add_lt_is_or hWW D).symm
  have hsum : 2 ^ 22 * D + 2 ^ 12 * W = 2 ^ 12 * (2 ^ 10 * D + W) := by omega
  have hor2 : 2 ^ 12 * (2 ^ 10 * D + W) ||| N = 2 ^ 12 * (2 ^ 10 * D + W) + N :=
    (Nat.mul_add_lt_is_or hNlt _).symm
  have hbig : 2 ^ 22 * D + 2 ^ 12 * W + N < 2 ^ 63 := by omega
  unfold UUID.makeID
  rw [hsub, hW, hN, hshD, hshW, or64_natCast _ _ (by omega) (by omega) (by omega), hor1, hsum,
    or64_natCast _ _ (by omega) (by omega) (by omega), hor2, hD]
  push_cast
  ring

theorem waitNext_mem (timestamp now n : Int) (clock c : List Int)
    (h : waitNext timestamp now clock = some (n, c)) : n ∈ now :: clock := by
  induction clock generalizing now with
  | nil =>
    unfold waitNext at h
    split at h
    · cases h
    · simp only [Option.some.injEq, Prod.mk.injEq] at h
      simp [h.1]
  | cons r rs ih =>
    unfold waitNext at h
    split at h
    · exact List.mem_cons_of_mem _ (ih r h)
    · simp only [Option.some.injEq, Prod.mk.injEq] at h
      simp [h.1]

/-- The ID that `Get` returns is the ID expression on the worker it leaves, for one of
the clock readings. -/
theorem Get_makeID (w w2 : UUID) (clock c2 : List Int) (id : Int)
    (h : w.Get clock = some (id, w2, c2)) : ∃ now ∈ clock, id = w2.makeID now := by
  cases clock with
  | nil => simp [UUID.Get] at h
  | cons now rest =>
    simp only [UUID.Get] at h
    by_cases ht : w.timestamp = now
    · simp only [ht, if_true] at h
      by_cases hmax : add64 w.number 1 > numberMax
      · simp only [hmax, if_true] at h
        cases hw : waitNext now now rest with
        | none => simp [hw] at h
        | some r =>
          obtain ⟨n, c⟩ := r
          simp only [hw, Option.some.injEq, Prod.mk.injEq] at h
          obtain ⟨h1, h2, _⟩ := h
          exact ⟨n, waitNext_mem now now n rest c hw, by rw [← h1, ← h2]⟩
      · simp only [hmax, if_false, Option.some.injEq, Prod.mk.injEq] at h
        obtain ⟨h1, h2, _⟩ := h
        exact ⟨now, List.mem_cons_self _ _, by rw [← h1, ← h2]⟩
    · simp only [ht, if_false, Option.some.injEq, Prod.mk.injEq] at h
      obtain ⟨h1, h2, _⟩ := h
      exact ⟨now, List.mem_cons_self _ _, by rw [← h1, ← h2]⟩

/-- C23: `workerMax` is 1023 and `numberMax` is 4095, and for a millisecond with
`0 ≤ now - epoch < 2^41`, a worker ID in [0, 1023] and a number in [0, 4095], the ID
expression of `Get` is non-negative, nothing wraps, and it decodes back:
`ID >> 22` is `now - epoch`, `(ID >> 12) mod 1024` is the worker ID and `ID mod 4096`
is the number. -/
theorem makeID_layout (w : UUID) (now : Int) (hd0 : 0 ≤ now - epoch)
    (hd1 : now - epoch < 2 ^ 41) (hw0 : 0 ≤ w.workerID) (hw1 : w.workerID ≤ 1023)
    (hn0 : 0 ≤ w.number) (hn1 : w.number ≤ 4095) :
    workerMax = 1023 ∧ numberMax = 4095 ∧
      0 ≤ w.makeID now ∧
      w.makeID now = (now - epoch) * 2 ^ 22 + w.workerID * 2 ^ 12 + w.number ∧
      shr64 (w.makeID now) 22 = now - epoch ∧
      shr64 (w.makeID now) 12 % 1024 = w.workerID ∧
      w.makeID now % 4096 = w.number ∧
      (∀ (w0 : UUID) (clock c2 : List Int) (id : Int), w0.Get clock = some (id, w, c2) →
        ∃ n ∈ clock, id = w.makeID n) := by
  have hsum := makeID_eq_sum w now hd0 hd1 hw0 hw1 hn0 hn1
  refine ⟨by decide, by decide, ?_, hsum, ?_, ?_, ?_,
    fun w0 clock c2 id h => Get_makeID w0 w clock c2 id h⟩
  · rw [hsum]
    omega
  · rw [shr64, hsum]
    omega
  · rw [shr64, hsum]
    omega
  · rw [hsum]
    omega

/-- Witness of C23: the third ID of worker 1 in the millisecond after the epoch. -/
theorem makeID_layout_witness :
    (0 ≤ epoch + 1 - epoch ∧ epoch + 1 - epoch < 2 ^ 41) ∧
      ({ worker1 with number := 2 } : UUID).makeID (epoch + 1) = 4198402 ∧
      shr64 4198402 22 = epoch + 1 - epoch ∧
      shr64 4198402 12 % 1024 = 1 ∧ (4198402 : Int) % 4096 = 2 :=
  ⟨⟨by decide, by decide⟩,
    by
      have h := (makeID_layout ({ worker1 with number := 2 } : UUID) (epoch + 1) (by decide)
        (by decide) (by decide) (by decide) (by decide) (by decide)).2.2.2.1
      rw [h]
      decide,
    by decide, by decide, by decide⟩

/-! ### `NewUUID` -/

theorem workerMax_eq : workerMax = 1023 := by decide

theorem getIndex_nonneg (children : List String) (name : String) :
    0 ≤ getIndex children name := by
  unfold getIndex
  split
  · exact Int.ofNat_nonneg _
  · exact Int.le_refl 0

/-- C24: the worker that `NewUUID` returns has `0 ≤ workerID ≤ workerMax` = 1023,
whatever children the registry lists and whatever the cluster name is.  The raw ID is
`getIndex`: the index of the first child whose name contains the cluster name, 0 when
none does; it is kept when at most `workerMax` and reduced modulo `workerMax`
otherwise. -/
theorem NewUUID_workerID_bounds (root name : String) (children : List String) :
    0 ≤ (NewUUID root name children).workerID ∧
      (NewUUID root name children).workerID ≤ workerMax ∧
      workerMax = 1023 ∧
      (NewUUID root name children).workerID
        = (if getIndex children name ≤ 1023 then getIndex children name
           else getIndex children name % 1023) ∧
      getIndex children name
        = (match children.findIdx? (fun v => decide (name.data <:+: v.data)) with
           | some i => (i : Int)
           | none => 0) := by
  have h0 := getIndex_nonneg children name
  have hval : (NewUUID root name children).workerID
      = (if getIndex children name ≤ 1023 then getIndex children name
         else getIndex children name % 1023) := by
    unfold NewUUID
    simp only [workerMax_eq]
    have hneg : ¬ getIndex children name < 0 := by omega
    simp only [hneg, if_false]
    by_cases hle : getIndex children name ≤ 1023
    · have hgt : ¬ getIndex children name > 1023 := by omega
      simp only [hgt, if_false, hle, if_true]
    · have hgt : getIndex children name > 1023 := by omega
      simp only [hgt, if_true, hle, if_false]
      exact Int.tmod_eq_emod h0 (by decide)
  refine ⟨?_, ?_, workerMax_eq, hval, rfl⟩
  · rw [hval]
    split <;> omega
  · rw [hval, workerMax_eq]
    split <;> omega

end uuid

namespace conf

/-! ### `PathMatch.Match` -/

theorem Split_ne_nil (l : List Char) : Split l ≠ [] := by
  cases l with
  | nil => simp [Split]
  | cons c cs =>
    unfold Split
    split
    · simp
    · split <;> simp

theorem Split_append_slash (a b : List Char) : Split (a ++ '/' :: b) = Split a ++ Split b := by
  induction a with
  | nil => simp [Split]
  | cons c a ih =>
    show Split (c :: (a ++ '/' :: b)) = Split (c :: a) ++ Split b
    by_cases hc : c = '/'
    · rw [Split, if_pos hc, ih, Split, if_pos hc]
      rfl
    · rw [Split, if_neg hc, ih, Split, if_neg hc]
      cases hs : Split a with
      | nil => exact absurd hs (Split_ne_nil a)
      | cons seg segs => rfl

theorem matchLoop_cons (fold : String → String → Bool) (service : String)
    (sparties : List (List Char)) (u : String) (rest : List String) :
    matchLoop fold service sparties (u :: rest)
      = if matchBody fold service sparties u = true then some u
        else matchLoop fold service sparties rest := by
  simp only [matchLoop, matchBody]
  by_cases h1 : fold u service = true
  · simp [h1]
  · by_cases h2 : (Split u.data).length ≠ sparties.length ∧ ¬ (HasSuffix u.data dstar = true)
    · have h2a := h2.1
      have h2b := h2.2
      simp [h1, h2a, h2b]
    · by_cases h3 : (Split u.data).length > sparties.length
      · simp [h1, h2, h3]
      · by_cases h4 : matchSegments (Split u.data) sparties = true
        · simp only [h1, h2, h3, h4]
          simp only [not_and, Decidable.not_not] at h2
          by_cases h5 : (Split u.data).length = sparties.length
          · simp [h5]
          · simp [h5, h2 h5]
        · simp [h1, h2, h3, h4]

/-- Every pattern that the loop of `Match` returns is one of the patterns. -/
theorem matchLoop_mem (fold : String → String → Bool) (service : String)
    (sparties : List (List Char)) (all : List String) (u : String)
    (h : matchLoop fold service sparties all = some u) : u ∈ all := by
  induction all with
  | nil => simp [matchLoop] at h
  | cons u0 rest ih =>
    rw [matchLoop_cons] at h
    by_cases hb : matchBody fold service sparties u0 = true
    · rw [if_pos hb] at h
      simp only [Option.some.injEq] at h
      simp [h]
    · rw [if_neg hb] at h
      exact List.mem_cons_of_mem _ (ih h)

/-- When a pattern equals the service ignoring case, the loop of `Match` returns a
pattern. -/
theorem matchLoop_exact (fold : String → String → Bool) (service : String)
    (sparties : List (List Char)) (all : List String)
    (h : ∃ u ∈ all, fold u service = true) :
    ∃ u, matchLoop fold service sparties all = some u := by
  induction all with
  | nil =>
    obtain ⟨u, hu, _⟩ := h
    cases hu
  | cons u0 rest ih =>
    rw [matchLoop_cons]
    by_cases hb : matchBody fold service sparties u0 = true
    · exact ⟨u0, by rw [if_pos hb]⟩
    · rw [if_neg hb]
      obtain ⟨u, hu, hf⟩ := h
      rcases List.mem_cons.1 hu with h0 | h1
      · subst h0
        exact absurd (by simp [matchBody, hf]) hb
      · exact ih ⟨u, h1, hf⟩

theorem Match_all (fold : String → String → Bool) (a : PathMatch) (service : String) :
    (a.Match fold service).2.all = a.all := by
  unfold PathMatch.Match
  split
  · rfl
  · split <;> rfl

theorem after_all (fold : String → String → Bool) (a : PathMatch) (services : List String) :
    (a.after fold services).all = a.all := by
  unfold PathMatch.after
  induction services generalizing a with
  | nil => rfl
  | cons s ss ih => rw [List.foldl_cons, ih, Match_all]

theorem lookup_SetIfAbsent (cache : List (String × String)) (k v s : String)
    (hk : cache.lookup k = none) :
    (SetIfAbsent cache k v).lookup s
      = if s = k then some v else cache.lookup s := by
  unfold SetIfAbsent
  rw [hk]
  simp only [Option.isSome_none, Bool.false_eq_true, if_false, List.lookup_append]
  by_cases hs : s = k
  · subst hs
    simp [hk]
  · have hne : (s == k) = false := by simpa using hs
    simp [hs, List.lookup, hne]

/-- A call of `Match` keeps the cache faithful to the loop. -/
theorem Match_cacheOK (fold : String → String → Bool) (a : PathMatch) (service : String)
    (h : a.cacheOK fold) : (a.Match fold service).2.cacheOK fold := by
  unfold PathMatch.Match
  cases hc : a.cache.lookup service with
  | some v => exact h
  | none =>
    cases hm : matchLoop fold service (Split service.data) a.all with
    | some u =>
      intro s v hv
      simp only [lookup_SetIfAbsent _ _ _ _ hc] at hv
      by_cases hs : s = service
      · subst hs
        simp only [if_true, Option.some.injEq] at hv
        simp only [hm, Option.getD_some]
        exact hv.symm
      · simp only [hs, if_false] at hv
        exact h s v hv
    | none =>
      intro s v hv
      simp only [lookup_SetIfAbsent _ _ _ _ hc] at hv
      by_cases hs : s = service
      · subst hs
        simp only [if_true, Option.some.injEq] at hv
        simp only [hm, Option.getD_none]
        exact hv.symm
      · simp only [hs, if_false] at hv
        exact h s v hv

theorem after_cacheOK (fold : String → String → Bool) (a : PathMatch) (services : List String)
    (h : a.cacheOK fold) : (a.after fold services).cacheOK fold := by
  unfold PathMatch.after
  induction services generalizing a with
  | nil => exact h
  | cons s ss ih =>
    rw [List.foldl_cons]
    exact ih _ (Match_cacheOK fold a s h)

theorem New_cacheOK (fold : String → String → Bool) (sort : List String → List String)
    (all : List String) : (NewPathMatch sort all).cacheOK fold := by
  intro s v hv
  simp [NewPathMatch, List.lookup] at hv

/-- The result of `Match` on a faithful cache: the pattern is what the loop finds (or
the empty string), and the flag is true exactly when the loop finds a pattern and
either that pattern is not the empty string or the service is not cached yet. -/
theorem Match_result (fold : String → String → Bool) (a : PathMatch) (service : String)
    (h : a.cacheOK fold) :
    (a.Match fold service).1.2 = (matchLoop fold service (Split service.data) a.all).getD "" ∧
      ((a.Match fold service).1.1 = true ↔
        ∃ u, matchLoop fold service (Split service.data) a.all = some u ∧
          (u ≠ "" ∨ a.cache.lookup service = none)) := by
  unfold PathMatch.Match
  cases hc : a.cache.lookup service with
  | some v =>
    have hv := h service v hc
    cases hm : matchLoop fold service (Split service.data) a.all with
    | some u =>
      rw [hm] at hv
      simp only [Option.getD_some] at hv
      subst hv
      simp
    | none =>
      rw [hm] at hv
      simp only [Option.getD_none] at hv
      subst hv
      simp
  | none =>
    cases hm : matchLoop fold service (Split service.data) a.all with
    | some u => simp
    | none => simp


/-- The segment loop on a pattern that ends in `**` after segments that are neither
`*` nor `**`: it returns exactly when those segments are the leading segments of the
service. -/
theorem matchSegments_dstar (ps sps : List (List Char))
    (hp : ∀ e ∈ ps, e ≠ star ∧ e ≠ dstar) :
    matchSegments (ps ++ [dstar]) sps = true ↔
      ps.length ≤ sps.length ∧ sps.take ps.length = ps := by
  induction ps generalizing sps with
  | nil => simp [matchSegments]
  | cons e ps ih =>
    have he := hp e (List.mem_cons_self _ _)
    have hrest : ∀ x ∈ ps, x ≠ star ∧ x ≠ dstar :=
      fun x hx => hp x (List.mem_cons_of_mem _ hx)
    cases sps with
    | nil => simp [matchSegments, he.1, he.2]
    | cons x xs =>
      by_cases hx : e = x
      · subst hx
        simp [matchSegments, he.1, he.2, ih xs hrest]
      · simp only [List.cons_append, matchSegments, he.2, he.1, if_false, List.head?_cons,
          ne_eq, Option.some.injEq, hx, not_false_eq_true, if_true, Bool.false_eq_true,
          List.length_cons, Nat.add_le_add_iff_right, List.take_succ_cons, List.cons.injEq,
          false_iff, not_and]
        intro _ h
        exact absurd h.symm hx

/-- The inner loop after a `*` segment, on as many pattern segments as service
segments: `isMatch` stays true exactly when each pattern segment is `*` or equals the
service segment at its position. -/
theorem matchAfterStar_iff (ups sps : List (List Char)) (hlen : ups.length = sps.length) :
    matchAfterStar ups sps = true ↔ List.Forall₂ segAgree ups sps := by
  induction ups generalizing sps with
  | nil =>
    cases sps with
    | nil => simp [matchAfterStar]
    | cons x xs => simp at hlen
  | cons e ups ih =>
    cases sps with
    | nil => simp at hlen
    | cons x xs =>
      have hl : ups.length = xs.length := by simpa using hlen
      by_cases hs : e = star
      · simp [matchAfterStar, hs, ih xs hl, segAgree]
      · by_cases hx : e = x
        · subst hx
          simp [matchAfterStar, hs, ih xs hl, segAgree]
        · simp [matchAfterStar, hs, hx, segAgree]

/-- The segment loop on a pattern without a `**` segment, on as many pattern segments
as service segments: it returns exactly when the pattern has a `*` segment and each
pattern segment is `*` or equals the service segment at its position. -/
theorem matchSegments_star (ups sps : List (List Char)) (hlen : ups.length = sps.length)
    (hd : ∀ e ∈ ups, e ≠ dstar) :
    matchSegments ups sps = true ↔ star ∈ ups ∧ List.Forall₂ segAgree ups sps := by
  induction ups generalizing sps with
  | nil =>
    cases sps with
    | nil => simp [matchSegments]
    | cons x xs => simp at hlen
  | cons e ups ih =>
    have he := hd e (List.mem_cons_self _ _)
    have hrest : ∀ x ∈ ups, x ≠ dstar := fun x hx => hd x (List.mem_cons_of_mem _ hx)
    cases sps with
    | nil => simp at hlen
    | cons x xs =>
      have hl : ups.length = xs.length := by simpa using hlen
      have hsd : star ≠ dstar := by decide
      by_cases hs : e = star
      · simp [matchSegments, hs, hsd, matchAfterStar_iff ups xs hl, segAgree]
      · have hs2 : star ≠ e := fun h => hs h.symm
        by_cases hx : e = x
        · subst hx
          simp [matchSegments, he, hs, hs2, ih xs hl hrest, segAgree]
        · simp [matchSegments, he, hs, hx, segAgree]

/-- The first segment of a string is its beginning. -/
theorem Split_head (l seg : List Char) (segs : List (List Char)) (h : Split l = seg :: segs) :
    ∃ b, l = seg ++ b := by
  induction l generalizing seg segs with
  | nil =>
    simp only [Split, List.cons.injEq] at h
    exact ⟨[], by rw [← h.1]; rfl⟩
  | cons c cs ih =>
    by_cases hc : c = '/'
    · rw [Split, if_pos hc] at h
      simp only [List.cons.injEq] at h
      exact ⟨c :: cs, by rw [← h.1]; rfl⟩
    · rw [Split, if_neg hc] at h
      cases hs : Split cs with
      | nil => exact absurd hs (Split_ne_nil cs)
      | cons s0 ss =>
        rw [hs] at h
        simp only [List.cons.injEq] at h
        obtain ⟨b, hb⟩ := ih s0 ss hs
        exact ⟨b, by rw [← h.1, hb]; rfl⟩

/-- Every segment of a string is a contiguous part of it. -/
theorem mem_Split_part (l e : List Char) (h : e ∈ Split l) : e <:+: l := by
  induction l generalizing e with
  | nil =>
    simp only [Split, List.mem_singleton] at h
    subst h
    exact List.infix_refl _
  | cons c cs ih =>
    by_cases hc : c = '/'
    · rw [Split, if_pos hc] at h
      rcases List.mem_cons.1 h with h0 | h1
      · subst h0
        exact List.nil_infix
      · exact List.infix_cons (ih e h1)
    · rw [Split, if_neg hc] at h
      cases hs : Split cs with
      | nil => exact absurd hs (Split_ne_nil cs)
      | cons seg segs =>
        rw [hs] at h
        rcases List.mem_cons.1 h with h0 | h1
        · subst h0
          obtain ⟨b, hb⟩ := Split_head cs seg segs hs
          exact ⟨[], b, by rw [hb]; rfl⟩
        · exact List.infix_cons (ih e (by rw [hs]; exact List.mem_cons_of_mem _ h1))


theorem matchLoop_single (fold : String → String → Bool) (service : String)
    (sparties : List (List Char)) (u : String) :
    matchLoop fold service sparties [u]
      = if matchBody fold service sparties u = true then some u else none := by
  rw [matchLoop_cons]
  simp [matchLoop]

/-- The result of `Match` on a `PathMatch` built from the single, non-empty pattern
`u`, after any earlier calls: `(true, u)` when the loop body returns for `u`, and
`(false, "")` otherwise. -/
theorem Match_single (fold : String → String → Bool) (sort : List String → List String)
    (u service : String) (history : List String) (hsort : sort [u] = [u]) (hu : u ≠ "") :
    (((NewPathMatch sort [u]).after fold history).Match fold service).1
      = if matchBody fold service (Split service.data) u = true then (true, u)
        else (false, "") := by
  have hall : ((NewPathMatch sort [u]).after fold history).all = [u] := by
    rw [after_all]
    exact hsort
  have hok := after_cacheOK fold _ history (New_cacheOK fold sort [u])
  obtain ⟨hpat, hflag⟩ := Match_result fold _ service hok
  rw [hall, matchLoop_single] at hpat hflag
  by_cases hb : matchBody fold service (Split service.data) u = true
  · rw [if_pos hb] at hpat hflag ⊢
    have hf : (((NewPathMatch sort [u]).after fold history).Match fold service).1.1 = true :=
      hflag.2 ⟨u, rfl, Or.inl hu⟩
    exact Prod.ext hf hpat
  · rw [if_neg hb] at hpat hflag ⊢
    have hf : (((NewPathMatch sort [u]).after fold history).Match fold service).1.1 = false := by
      cases hc : (((NewPathMatch sort [u]).after fold history).Match fold service).1.1 with
      | false => rfl
      | true =>
        obtain ⟨v, hv, _⟩ := hflag.1 hc
        cases hv
    exact Prod.ext hf hpat

/-- The loop body on a pattern `p/**` whose other segments are neither `*` nor `**`. -/
theorem matchBody_dstar (fold : String → String → Bool) (p service : String)
    (hp : ∀ e ∈ Split p.data, e ≠ star ∧ e ≠ dstar) :
    matchBody fold service (Split service.data) (p ++ "/**") = true ↔
      (fold (p ++ "/**") service = true ∨
        ((Split (p ++ "/**").data).length ≤ (Split service.data).length ∧
          (Split service.data).take (Split p.data).length = Split p.data)) := by
  have hdata : (p ++ "/**").data = p.data ++ '/' :: dstar := by
    rw [String.data_append]
    rfl
  have hsplit : Split (p ++ "/**").data = Split p.data ++ [dstar] := by
    rw [hdata, Split_append_slash]
    rfl
  have hsuf : HasSuffix (p ++ "/**").data dstar = true := by
    rw [hdata]
    simp only [HasSuffix, decide_eq_true_eq]
    exact ⟨p.data ++ ['/'], by simp⟩
  unfold matchBody
  rw [hsuf, hsplit, Bool.or_eq_true]
  simp only [Bool.not_true, Bool.and_false, Bool.not_false, Bool.true_and, Bool.and_eq_true,
    Bool.not_eq_true', decide_eq_false_iff_not, matchSegments_dstar _ _ hp, List.length_append,
    List.length_singleton, not_lt, gt_iff_lt]
  constructor
  · rintro (h | ⟨h1, _, h3⟩)
    · exact Or.inl h
    · exact Or.inr ⟨h1, h3⟩
  · rintro (h | ⟨h1, h3⟩)
    · exact Or.inl h
    · exact Or.inr ⟨h1, by omega, h3⟩

/-- The loop body on a pattern that does not contain `**`. -/
theorem matchBody_star (fold : String → String → Bool) (u service : String)
    (hu : ¬ (dstar <:+: u.data)) :
    matchBody fold service (Split service.data) u = true ↔
      (fold u service = true ∨
        (star ∈ Split u.data ∧ (Split u.data).length = (Split service.data).length ∧
          List.Forall₂ segAgree (Split u.data) (Split service.data))) := by
  have hsuf : HasSuffix u.data dstar = false := by
    simp only [HasSuffix, decide_eq_false_iff_not]
    exact fun h => hu h.isInfix
  have hseg : ∀ e ∈ Split u.data, e ≠ dstar := by
    intro e he h
    rw [h] at he
    exact hu (mem_Split_part _ _ he)
  unfold matchBody
  rw [hsuf, Bool.or_eq_true]
  by_cases hlen : (Split u.data).length = (Split service.data).length
  · have hnot : ¬ (Split u.data).length > (Split service.data).length := by omega
    simp [hlen, matchSegments_star _ _ hlen hseg]
  · have hF : ¬ List.Forall₂ segAgree (Split u.data) (Split service.data) :=
      fun h => hlen h.length_eq
    simp [hlen, hF]

/-- C17: for a `PathMatch` built from the single pattern `p/**`, where no segment of
`p` is `*` or `**`, and after any earlier calls, `Match(service)` returns true exactly
when the service equals the pattern ignoring case, or the service has at least as
many segments as the pattern and its leading segments are the segments of `p`; the
pattern returned is then `p/**`, and the empty string otherwise. -/
theorem Match_trailing_dstar (fold : String → String → Bool)
    (sort : List String → List String) (p service : String) (history : List String)
    (hsort : sort [p ++ "/**"] = [p ++ "/**"])
    (hp : ∀ e ∈ Split p.data, e ≠ star ∧ e ≠ dstar) :
    ((((NewPathMatch sort [p ++ "/**"]).after fold history).Match fold service).1.1 = true ↔
        (fold (p ++ "/**") service = true ∨
          ((Split (p ++ "/**").data).length ≤ (Split service.data).length ∧
            (Split service.data).take (Split p.data).length = Split p.data))) ∧
      (((NewPathMatch sort [p ++ "/**"]).after fold history).Match fold service).1.2
        = (if (((NewPathMatch sort [p ++ "/**"]).after fold history).Match fold service).1.1
              = true
           then p ++ "/**" else "") := by
  have hne : p ++ "/**" ≠ "" := by
    intro h
    have hd : (p ++ "/**").data = "".data := by rw [h]
    rw [String.data_append] at hd
    have hl := congrArg List.length hd
    simp at hl
  have hres := Match_single fold sort (p ++ "/**") service history hsort hne
  by_cases hb : matchBody fold service (Split service.data) (p ++ "/**") = true
  · rw [if_pos hb] at hres
    rw [hres]
    exact ⟨⟨fun _ => (matchBody_dstar fold p service hp).1 hb, fun _ => rfl⟩, by simp⟩
  · rw [if_neg hb] at hres
    rw [hres]
    refine ⟨⟨fun h => ?_, fun h => absurd ((matchBody_dstar fold p service hp).2 h) hb⟩, ?_⟩
    · simp at h
    · simp

/-- Witness of C17: the pattern `/a/**`; `/a/x/y` matches, also when asked again,
`/a` and `/b/x` do not. -/
theorem Match_trailing_dstar_witness :
    (id ["/a" ++ "/**"] = ["/a" ++ "/**"] ∧ ∀ e ∈ Split "/a".data, e ≠ star ∧ e ≠ dstar) ∧
      ((((NewPathMatch id ["/a" ++ "/**"]).after foldASCII ["/a/x/y", "/b/x"]).Match foldASCII
            "/a/x/y").1.1 = true ↔
        (foldASCII ("/a" ++ "/**") "/a/x/y" = true ∨
          ((Split ("/a" ++ "/**").data).length ≤ (Split "/a/x/y".data).length ∧
            (Split "/a/x/y".data).take (Split "/a".data).length = Split "/a".data))) ∧
      (((NewPathMatch id ["/a" ++ "/**"]).after foldASCII ["/a/x/y", "/b/x"]).Match foldASCII
          "/a/x/y").1 = (true, "/a/**") ∧
      (((NewPathMatch id ["/a" ++ "/**"]).after foldASCII ["/a/x/y", "/b/x"]).Match foldASCII
          "/a").1 = (false, "") :=
  ⟨⟨rfl, by decide⟩,
    (Match_trailing_dstar foldASCII id "/a" "/a/x/y" ["/a/x/y", "/b/x"] rfl (by decide)).1,
    by decide, by decide⟩


/-- Whenever `Match` returns false, the pattern it returns is the empty string. -/
theorem Match_false_empty (fold : String → String → Bool) (a : PathMatch) (service : String)
    (h : (a.Match fold service).1.1 = false) : (a.Match fold service).1.2 = "" := by
  unfold PathMatch.Match at h ⊢
  cases hc : a.cache.lookup service with
  | some v =>
    simp only [hc] at h ⊢
    simpa using h
  | none =>
    cases hm : matchLoop fold service (Split service.data) a.all with
    | some u => simp [hc, hm] at h
    | none => simp

/-- Exact match, away from the empty pattern: when the empty string is not among the
patterns and some pattern equals the service ignoring case, `Match` returns true
with one of the patterns, after any earlier calls. -/
theorem Match_exact_nonempty (fold : String → String → Bool)
    (sort : List String → List String) (all : List String) (service : String)
    (history : List String) (hperm : (sort all).Perm all) (hne : "" ∉ all)
    (h : ∃ u ∈ all, fold u service = true) :
    ∃ u ∈ all, (((NewPathMatch sort all).after fold history).Match fold service).1
      = (true, u) := by
  have hall : ((NewPathMatch sort all).after fold history).all = sort all := by
    rw [after_all]
    rfl
  have hok := after_cacheOK fold _ history (New_cacheOK fold sort all)
  obtain ⟨hpat, hflag⟩ := Match_result fold _ service hok
  rw [hall] at hpat hflag
  have h2 : ∃ u ∈ sort all, fold u service = true := by
    obtain ⟨u, hu, hf⟩ := h
    exact ⟨u, hperm.mem_iff.2 hu, hf⟩
  obtain ⟨u, hu⟩ := matchLoop_exact fold service (Split service.data) (sort all) h2
  have hmem : u ∈ all := hperm.mem_iff.1 (matchLoop_mem fold service _ _ u hu)
  have hu0 : u ≠ "" := fun h0 => hne (h0 ▸ hmem)
  refine ⟨u, hmem, Prod.ext (hflag.2 ⟨u, hu, Or.inl hu0⟩) ?_⟩
  rw [hpat, hu]
  rfl

/-- C16 fails on the code: with the patterns `""` and `/a`, the first `Match("")`
finds the exact match and returns `(true, "")`, caching the pattern; the second
`Match("")` reads the cached empty string as "no match" and returns `(false, "")`,
although a configured pattern equals the service. -/
theorem Match_exact_lost_in_cache (fold : String → String → Bool)
    (sort : List String → List String) (hf : fold "" "" = true)
    (hs : sort ["", "/a"] = ["", "/a"]) :
    ((NewPathMatch sort ["", "/a"]).Match fold "").1 = (true, "") ∧
      (((NewPathMatch sort ["", "/a"]).after fold [""]).Match fold "").1 = (false, "") ∧
      (∃ u ∈ ["", "/a"], fold u "" = true) := by
  refine ⟨?_, ?_, ⟨"", by simp, hf⟩⟩
  · simp [NewPathMatch, hs, PathMatch.Match, matchLoop, hf, List.lookup]
  · simp [NewPathMatch, hs, PathMatch.after, PathMatch.Match, matchLoop, hf, List.lookup,
      SetIfAbsent]

/-- Witness for C16: the comparison on ASCII letters and patterns given in sorted
order. -/
theorem Match_exact_lost_in_cache_witness :
    (foldASCII "" "" = true ∧ id ["", "/a"] = ["", "/a"]) ∧
      ((NewPathMatch id ["", "/a"]).Match foldASCII "").1 = (true, "") ∧
      (((NewPathMatch id ["", "/a"]).after foldASCII [""]).Match foldASCII "").1 = (false, "") :=
  ⟨⟨by decide, rfl⟩,
    (Match_exact_lost_in_cache foldASCII id (by decide) rfl).1,
    (Match_exact_lost_in_cache foldASCII id (by decide) rfl).2.1⟩

/-- Single-segment `*`, away from the empty pattern: for a `PathMatch` built from a
single non-empty pattern `u` that does not contain `**`, and after any earlier calls,
`Match(service)` returns true exactly when the service equals `u` ignoring case, or
`u` has a `*` segment, as many segments as the service, and each segment of `u` other
than `*` equals the service segment at its position. -/
theorem Match_single_star_nonempty (fold : String → String → Bool)
    (sort : List String → List String) (u service : String) (history : List String)
    (hsort : sort [u] = [u]) (hu : ¬ (dstar <:+: u.data)) (hne : u ≠ "") :
    (((NewPathMatch sort [u]).after fold history).Match fold service).1.1 = true ↔
      (fold u service = true ∨
        (star ∈ Split u.data ∧ (Split u.data).length = (Split service.data).length ∧
          List.Forall₂ segAgree (Split u.data) (Split service.data))) := by
  have hres := Match_single fold sort u service history hsort hne
  by_cases hb : matchBody fold service (Split service.data) u = true
  · rw [if_pos hb] at hres
    rw [hres]
    exact ⟨fun _ => (matchBody_star fold u service hu).1 hb, fun _ => rfl⟩
  · rw [if_neg hb] at hres
    rw [hres]
    refine ⟨fun h => ?_, fun h => absurd ((matchBody_star fold u service hu).2 h) hb⟩
    simp at h

/-- C18 fails on the code: the single pattern `""` does not contain `**`, and the
service `""` equals it.  The first `Match("")` returns true; the second one reads the
cached empty pattern as "no match" and returns false. -/
theorem Match_empty_pattern_cached (fold : String → String → Bool)
    (sort : List String → List String) (hf : fold "" "" = true) (hs : sort [""] = [""]) :
    ¬ (dstar <:+: "".data) ∧
      ((NewPathMatch sort [""]).Match fold "").1.1 = true ∧
      (((NewPathMatch sort [""]).after fold [""]).Match fold "").1.1 = false ∧
      ¬ ((((NewPathMatch sort [""]).after fold [""]).Match fold "").1.1 = true ↔
        (fold "" "" = true ∨
          (star ∈ Split "".data ∧ (Split "".data).length = (Split "".data).length ∧
            List.Forall₂ segAgree (Split "".data) (Split "".data)))) := by
  have h2 : (((NewPathMatch sort [""]).after fold [""]).Match fold "").1.1 = false := by
    simp [NewPathMatch, hs, PathMatch.after, PathMatch.Match, matchLoop, hf, List.lookup,
      SetIfAbsent]
  refine ⟨by decide, ?_, h2, ?_⟩
  · simp [NewPathMatch, hs, PathMatch.Match, matchLoop, hf, List.lookup]
  · rw [h2]
    simp [hf]

/-- Witness for C18: the comparison on ASCII letters. -/
theorem Match_empty_pattern_cached_witness :
    (foldASCII "" "" = true ∧ id [""] = [""]) ∧
      ((NewPathMatch id [""]).Match foldASCII "").1.1 = true ∧
      (((NewPathMatch id [""]).after foldASCII [""]).Match foldASCII "").1.1 = false :=
  ⟨⟨by decide, rfl⟩,
    (Match_empty_pattern_cached foldASCII id (by decide) rfl).2.1,
    (Match_empty_pattern_cached foldASCII id (by decide) rfl).2.2.1⟩


/-! ### `Response.GetTemplate` -/

/-- What `firstIdx` returns: a position holding an element that satisfies `p`, before
which no element does. -/
theorem firstIdx_eq_some {α : Type} (p : α → Bool) (l : List α) (i : Nat) :
    firstIdx p l = some i ↔
      (∃ x, l[i]? = some x ∧ p x = true) ∧ ∀ j < i, ∀ x, l[j]? = some x → p x = false := by
  induction l generalizing i with
  | nil => simp [firstIdx]
  | cons a l ih =>
    by_cases ha : p a = true
    · simp only [firstIdx, ha, if_true, Option.some.injEq]
      constructor
      · intro h
        subst h
        exact ⟨⟨a, by simp, ha⟩, fun j hj => absurd hj (Nat.not_lt_zero j)⟩
      · rintro ⟨_, h2⟩
        cases i with
        | zero => rfl
        | succ i =>
          have := h2 0 (Nat.succ_pos i) a (by simp)
          rw [ha] at this
          cases this
    · have ha2 : p a = false := by simpa using ha
      simp only [firstIdx, ha2, Bool.false_eq_true, if_false, Option.map_eq_some']
      constructor
      · rintro ⟨k, hk, rfl⟩
        obtain ⟨⟨x, hx, hpx⟩, hbefore⟩ := (ih k).1 hk
        refine ⟨⟨x, by simpa using hx, hpx⟩, ?_⟩
        intro j hj y hy
        cases j with
        | zero =>
          simp only [List.getElem?_cons_zero, Option.some.injEq] at hy
          rw [← hy]
          exact ha2
        | succ j => exact hbefore j (by omega) y (by simpa using hy)
      · rintro ⟨⟨x, hx, hpx⟩, hbefore⟩
        cases i with
        | zero =>
          simp only [List.getElem?_cons_zero, Option.some.injEq] at hx
          rw [hx, hpx] at ha2
          cases ha2
        | succ i =>
          refine ⟨i, (ih i).2 ⟨⟨x, by simpa using hx, hpx⟩, ?_⟩, rfl⟩
          intro j hj y hy
          exact hbefore (j + 1) (by omega) y (by simpa using hy)

theorem firstIdx_eq_none {α : Type} (p : α → Bool) (l : List α) :
    firstIdx p l = none ↔ ∀ x ∈ l, p x = false := by
  induction l with
  | nil => simp [firstIdx]
  | cons a l ih =>
    by_cases ha : p a = true
    · simp [firstIdx, ha]
    · have ha2 : p a = false := by simpa using ha
      simp [firstIdx, ha2, ih]

theorem lastIdx_eq_none {α : Type} (p : α → Bool) (l : List α) :
    lastIdx p l = none ↔ ∀ x ∈ l, p x = false := by
  induction l with
  | nil => simp [lastIdx]
  | cons a l ih =>
    cases hl : lastIdx p l with
    | some k =>
      have hne : ¬ ∀ x ∈ l, p x = false := fun h => by
        rw [ih.2 h] at hl
        cases hl
      simp only [lastIdx, hl]
      constructor
      · intro h
        cases h
      · intro h
        exact absurd (fun x hx => h x (List.mem_cons_of_mem _ hx)) hne
    | none =>
      have hall := ih.1 hl
      by_cases ha : p a = true
      · simp [lastIdx, hl, ha]
      · have ha2 : p a = false := by simpa using ha
        simp only [lastIdx, hl, ha2, Bool.false_eq_true, if_false, true_iff]
        intro x hx
        rcases List.mem_cons.1 hx with h | h
        · rw [h]
          exact ha2
        · exact hall x h

/-- What `lastIdx` returns: a position holding an element that satisfies `p`, after
which no element does. -/
theorem lastIdx_eq_some {α : Type} (p : α → Bool) (l : List α) (i : Nat) :
    lastIdx p l = some i ↔
      (∃ x, l[i]? = some x ∧ p x = true) ∧ ∀ j, i < j → ∀ x, l[j]? = some x → p x = false := by
  induction l generalizing i with
  | nil => simp [lastIdx]
  | cons a l ih =>
    cases hl : lastIdx p l with
    | some k =>
      obtain ⟨⟨x, hx, hpx⟩, hafter⟩ := (ih k).1 hl
      simp only [lastIdx, hl, Option.some.injEq]
      constructor
      · intro h
        subst h
        refine ⟨⟨x, by simpa using hx, hpx⟩, ?_⟩
        intro j hj y hy
        cases j with
        | zero => omega
        | succ j => exact hafter j (by omega) y (by simpa using hy)
      · rintro ⟨⟨y, hy, hpy⟩, hafter2⟩
        rcases Nat.lt_trichotomy i (k + 1) with h | h | h
        · have := hafter2 (k + 1) h x (by simpa using hx)
          rw [hpx] at this
          cases this
        · exact h.symm
        · cases i with
          | zero => omega
          | succ i =>
            have := hafter i (by omega) y (by simpa using hy)
            rw [hpy] at this
            cases this
    | none =>
      have hall := (lastIdx_eq_none p l).1 hl
      by_cases ha : p a = true
      · simp only [lastIdx, hl, ha, if_true, Option.some.injEq]
        constructor
        · intro h
          subst h
          refine ⟨⟨a, by simp, ha⟩, ?_⟩
          intro j hj y hy
          cases j with
          | zero => omega
          | succ j =>
            simp only [List.getElem?_cons_succ] at hy
            exact hall y (List.getElem?_mem hy)
        · rintro ⟨⟨y, hy, hpy⟩, _⟩
          cases i with
          | zero => rfl
          | succ i =>
            simp only [List.getElem?_cons_succ] at hy
            have := hall y (List.getElem?_mem hy)
            rw [hpy] at this
            cases this
      · have ha2 : p a = false := by simpa using ha
        simp only [lastIdx, hl, ha2, Bool.false_eq_true, if_false]
        constructor
        · intro h
          cases h
        rintro ⟨⟨y, hy, hpy⟩, _⟩
        exfalso
        cases i with
        | zero =>
          simp only [List.getElem?_cons_zero, Option.some.injEq] at hy
          rw [hy, hpy] at ha2
          cases ha2
        | succ i =>
          simp only [List.getElem?_cons_succ] at hy
          have := hall y (List.getElem?_mem hy)
          rw [hpy] at this
          cases this

/-- The loop over the services of one template: it leaves by `goto` when the service
is listed, and otherwise sets `last` to this template when `*` is listed. -/
theorem scanServices_eq (s : String) (i : Nat) (services : List String) (last : Option Nat) :
    scanServices s i services last
      = if s ∈ services then (some i, true)
        else if "*" ∈ services then (some i, false) else (last, false) := by
  induction services generalizing last with
  | nil => simp [scanServices]
  | cons a rest ih =>
    by_cases h1 : a = s
    · simp [scanServices, h1]
    · have h1b : ¬ s = a := fun h => h1 h.symm
      by_cases h2 : a = "*"
      · simp only [scanServices, h1, if_false, h2, if_true, ih, List.mem_cons, h1b, false_or,
          true_or]
        subst h2
        by_cases h3 : s ∈ rest
        · simp [h3]
        · simp [h3, h1, h1b]
      · have h2b : ¬ "*" = a := fun h => h2 h.symm
        simp [scanServices, h1, h2, ih, h1b, h2b]

/-- The loop over the templates, from position `i` on. -/
theorem scanTemplates_eq (s : String) (i : Nat) (ts : List Template) (last : Option Nat) :
    scanTemplates s i ts last
      = match firstIdx (fun t => decide (s ∈ t.Services)) ts with
        | some k => some (i + k)
        | none =>
          match lastIdx (fun t => decide ("*" ∈ t.Services)) ts with
          | some k => some (i + k)
          | none => last := by
  induction ts generalizing i last with
  | nil => simp [scanTemplates, firstIdx, lastIdx]
  | cons t ts ih =>
    rw [scanTemplates, scanServices_eq]
    by_cases h1 : s ∈ t.Services
    · simp [h1, firstIdx]
    · by_cases h2 : "*" ∈ t.Services
      · simp only [h1, if_false, h2, if_true, ih, firstIdx, decide_False, Bool.false_eq_true,
          lastIdx, decide_True]
        cases firstIdx (fun t => decide (s ∈ t.Services)) ts with
        | some k => simp [Nat.add_assoc, Nat.add_comm 1 k]
        | none =>
          cases lastIdx (fun t => decide ("*" ∈ t.Services)) ts with
          | some k => simp [Nat.add_assoc, Nat.add_comm 1 k]
          | none => simp
      · simp only [h1, if_false, h2, ih, firstIdx, decide_False, Bool.false_eq_true, lastIdx]
        cases firstIdx (fun t => decide (s ∈ t.Services)) ts with
        | some k => simp [Nat.add_assoc, Nat.add_comm 1 k]
        | none =>
          cases lastIdx (fun t => decide ("*" ∈ t.Services)) ts with
          | some k => simp [Nat.add_assoc, Nat.add_comm 1 k]
          | none => simp

theorem modifyAt_map {α β : Type} (f : α → α) (g : α → β) (hfg : ∀ x, g (f x) = g x)
    (i : Nat) (l : List α) : (modifyAt f i l).map g = l.map g := by
  induction l generalizing i with
  | nil => cases i <;> rfl
  | cons a l ih =>
    cases i with
    | zero => simp [modifyAt, hfg]
    | succ i => simp [modifyAt, ih]

theorem modifyAt_getElem? {α : Type} (f : α → α) (i : Nat) (l : List α) :
    (modifyAt f i l)[i]? = l[i]?.map f := by
  induction l generalizing i with
  | nil => cases i <;> rfl
  | cons a l ih =>
    cases i with
    | zero => simp [modifyAt]
    | succ i => simp [modifyAt, ih]

/-- C19: `GetTemplate(s)` selects by exact service first.  If some template lists
`s`, the result is true with the first such template in list order; otherwise, if
some template lists `*`, it is true with the last template that lists `*`;
otherwise it is false with nil.  The template returned is that element of
`r.Templates`, with its text and services as they were and its parameters filled
from the parameters of the response. -/
theorem GetTemplate_selects (r : Response) (s : String) :
    (r.GetTemplate s).1
        = (match firstIdx (fun t => decide (s ∈ t.Services)) r.Templates with
           | some i => (true, some i)
           | none =>
             match lastIdx (fun t => decide ("*" ∈ t.Services)) r.Templates with
             | some i => (true, some i)
             | none => (false, none)) ∧
      (r.GetTemplate s).2.Templates.map (fun t => (t.Template, t.Services))
        = r.Templates.map (fun t => (t.Template, t.Services)) ∧
      (∀ i, (r.GetTemplate s).1.2 = some i →
        (r.GetTemplate s).2.Templates[i]? = r.Templates[i]?.map (fillParams r.Params)) ∧
      (r.GetTemplate s).2.Params = r.Params := by
  unfold Response.GetTemplate
  rw [scanTemplates_eq]
  cases h1 : firstIdx (fun t => decide (s ∈ t.Services)) r.Templates with
  | some k =>
    simp only [Nat.zero_add, Option.some.injEq, true_and, and_true]
    refine ⟨modifyAt_map (fillParams r.Params) (fun t => (t.Template, t.Services))
      (fun _ => rfl) _ _, ?_⟩
    intro i hi
    subst hi
    exact modifyAt_getElem? _ _ _
  | none =>
    cases h2 : lastIdx (fun t => decide ("*" ∈ t.Services)) r.Templates with
    | some k =>
      simp only [Nat.zero_add, Option.some.injEq, true_and, and_true]
      refine ⟨modifyAt_map (fillParams r.Params) (fun t => (t.Template, t.Services))
      (fun _ => rfl) _ _, ?_⟩
      intro i hi
      subst hi
      exact modifyAt_getElem? _ _ _
    | none => simp

end conf

namespace ras

/-! ### `RASAuths.Contains` -/

/-- The loop over the requests of one auth: it returns when the path is listed, and
otherwise sets `last` to this auth when `*` is listed. -/
theorem scanRequests_eq (p : String) (i : Nat) (requests : List String) (last : Option Nat) :
    scanRequests p i requests last
      = if p ∈ requests then (some i, true)
        else if "*" ∈ requests then (some i, false) else (last, false) := by
  induction requests generalizing last with
  | nil => simp [scanRequests]
  | cons a rest ih =>
    by_cases h1 : a = p
    · simp [scanRequests, h1]
    · have h1b : ¬ p = a := fun h => h1 h.symm
      by_cases h2 : a = "*"
      · simp only [scanRequests, h1, if_false, h2, if_true, ih, List.mem_cons, h1b, false_or,
          true_or]
        subst h2
        by_cases h3 : p ∈ rest
        · simp [h3]
        · simp [h3, h1, h1b]
      · have h2b : ¬ "*" = a := fun h => h2 h.symm
        simp [scanRequests, h1, h2, ih, h1b, h2b]

/-- The loop over the auths, from position `i` on. -/
theorem scanAuths_eq (p : String) (i : Nat) (a : List RASAuth) (last : Option Nat) :
    scanAuths p i a last
      = match conf.firstIdx (fun auth => decide (p ∈ auth.Requests)) a with
        | some k => (true, some (i + k))
        | none =>
          match conf.lastIdx (fun auth => decide ("*" ∈ auth.Requests)) a with
          | some k => (true, some (i + k))
          | none => (last.isSome, last) := by
  induction a generalizing i last with
  | nil => simp [scanAuths, conf.firstIdx, conf.lastIdx]
  | cons t ts ih =>
    rw [scanAuths, scanRequests_eq]
    by_cases h1 : p ∈ t.Requests
    · simp [h1, conf.firstIdx]
    · by_cases h2 : "*" ∈ t.Requests
      · simp only [h1, if_false, h2, if_true, ih, conf.firstIdx, decide_False,
          Bool.false_eq_true, conf.lastIdx, decide_True]
        cases conf.firstIdx (fun auth => decide (p ∈ auth.Requests)) ts with
        | some k => simp [Nat.add_assoc, Nat.add_comm 1 k]
        | none =>
          cases conf.lastIdx (fun auth => decide ("*" ∈ auth.Requests)) ts with
          | some k => simp [Nat.add_assoc, Nat.add_comm 1 k]
          | none => simp
      · simp only [h1, if_false, h2, ih, conf.firstIdx, decide_False, Bool.false_eq_true,
          conf.lastIdx]
        cases conf.firstIdx (fun auth => decide (p ∈ auth.Requests)) ts with
        | some k => simp [Nat.add_assoc, Nat.add_comm 1 k]
        | none =>
          cases conf.lastIdx (fun auth => decide ("*" ∈ auth.Requests)) ts with
          | some k => simp [Nat.add_assoc, Nat.add_comm 1 k]
          | none => simp

/-- C20: `Contains(p)`: if some auth lists `p` in its `Requests`, the result is true
with the first such auth in list order, whether or not an earlier auth lists `*`;
otherwise, if some auth lists `*`, it is true with the last auth that lists `*`;
otherwise it is false with nil.  For instance, with a first auth listing `*` and a
second one listing `/x`, `Contains("/x")` returns the second. -/
theorem Contains_selects (a : RASAuths) (p : String) :
    a.Contains p
        = (match conf.firstIdx (fun auth => decide (p ∈ auth.Requests)) a with
           | some i => (true, some i)
           | none =>
             match conf.lastIdx (fun auth => decide ("*" ∈ auth.Requests)) a with
             | some i => (true, some i)
             | none => (false, none)) ∧
      RASAuths.Contains
          [{ Service := "s0", Requests := ["*"] }, { Service := "s1", Requests := ["/x"] }] "/x"
        = (true, some 1) := by
  refine ⟨?_, by decide⟩
  unfold RASAuths.Contains
  rw [scanAuths_eq]
  cases conf.firstIdx (fun auth => decide (p ∈ auth.Requests)) a with
  | some k => simp
  | none =>
    cases conf.lastIdx (fun auth => decide ("*" ∈ auth.Requests)) a with
    | some k => simp
    | none => simp

end ras
